import Mathlib

/-!
Verification of `convert.py` (TRS → WebVTT converter).

The source file has two functions with logic: `format_time` (seconds →
`hh:mm:ss.sss` string, built on Python's `str(datetime.timedelta(...))`)
and `convert` (walk of the parsed TRS tree emitting WebVTT cue blocks).

Embedding choices, each noted at its definition:
* A time value is embedded as the number of microseconds (an `Int`), the
  exact internal resolution of Python's `datetime.timedelta`.  The float
  parse `float(time)` and the half-even rounding of `timedelta(seconds=...)`
  happen below this abstraction: a numeric time-code string denotes its
  value in microseconds.  A string `float()` rejects is modelled as `none`
  in `format_time_checked`.
* The XML tree is embedded as the data it carries: a speaker table and, per
  turn, the ordered list of `Sync`/`Event` children together with their
  trailing text (`tail`, absent = `none`), exactly the fields the walk in
  `convert` reads.
* Python exceptions (`KeyError` on the noise table, `AttributeError` on a
  missing tail, and the `OverflowError` that `timedelta(seconds=...)`
  raises inside `generate_timestamp` when a parseable time code lies
  outside `timedelta`'s ±999999999-day range) become an `Except` error
  type.  `timedeltaOk` is that range check; the walk performs it exactly
  where the program calls `generate_timestamp` (convert.py lines 99 and
  112).  A time code such as `"inf"`/`"nan"`, which `float()` accepts but
  which denotes no integer number of microseconds, is likewise rejected
  by `timedelta` and sits outside this model's time domain.
-/

/-- Characters of the decimal digit `n % 10`, i.e. `'0'`..`'9'`. -/
def digitChar (n : Nat) : Char := Char.ofNat (48 + n % 10)

/-- Fuel-driven rendering of a natural number in decimal, embedding
Python's `"%d" % n` for `n ≥ 0`.  The fuel `natRepr` supplies is always
sufficient, so the fuel-exhausted branch is never taken. -/
def natReprAux : Nat → Nat → List Char → List Char
  | 0, _, acc => acc
  | fuel + 1, n, acc =>
    if n < 10 then digitChar n :: acc
    else natReprAux fuel (n / 10) (digitChar n :: acc)

/-- Decimal rendering of a natural number, as Python's `"%d"`. -/
def natRepr (n : Nat) : List Char := natReprAux (n + 1) n []

/-- Decimal rendering of an integer, as Python's `"%d"`: a `-` sign
followed by the digits of the absolute value. -/
def intRepr (z : Int) : List Char :=
  if z < 0 then '-' :: natRepr (-z).toNat else natRepr z.toNat

/-- Python's `"%02d" % n` for `n < 100` (the only use sites pass minute and
second values, both `< 60`): exactly two decimal digits. -/
def pad2 (n : Nat) : List Char := [digitChar (n / 10), digitChar n]

/-- Python's `"%06d" % n` for `n < 1000000` (the only use site passes the
microsecond field of a `timedelta`, which is `< 10^6`): exactly six
decimal digits. -/
def pad6 (n : Nat) : List Char :=
  [digitChar (n / 100000), digitChar (n / 10000), digitChar (n / 1000),
   digitChar (n / 100), digitChar (n / 10), digitChar n]

/-- Microseconds per day. -/
def usPerDay : Int := 86400000000

/-- Embedding of `str(datetime.timedelta(...))` on a duration of `us`
microseconds.  Python normalises to `days` (possibly negative) plus a
non-negative remainder below one day, renders `H:MM:SS`, prefixes
`D day[s], ` when `days ≠ 0`, and appends `.ffffff` when the microsecond
field is non-zero. -/
def timedeltaStr (us : Int) : List Char :=
  let d : Int := us.fdiv usPerDay
  let r : Nat := (us.fmod usPerDay).toNat
  let micro : Nat := r % 1000000
  let totsec : Nat := r / 1000000
  let core : List Char :=
    natRepr (totsec / 3600) ++ ':' :: pad2 (totsec % 3600 / 60) ++ ':' :: pad2 (totsec % 60)
  let withDays : List Char :=
    if d = 0 then core
    else intRepr d ++ (if d = 1 ∨ d = -1 then " day, ".data else " days, ".data) ++ core
  if micro = 0 then withDays else withDays ++ '.' :: pad6 micro

/-- Embedding of `format_time` (convert.py lines 9–21) on a time code worth
`us` microseconds:
`time = "0" + str(datetime.timedelta(seconds=float(time)))[:11]`, then
right-pad with zeros to length 12 if a `.` is present, else append
`".000"`. -/
def format_time (us : Int) : String :=
  let t : List Char := '0' :: (timedeltaStr us).take 11
  if '.' ∈ t then ⟨t ++ List.replicate (12 - t.length) '0'⟩ else ⟨t ++ ".000".data⟩

/-- Python's `timedelta(seconds=...)` accepts a duration exactly when its
normalised day count has magnitude at most 999999999; beyond that it
raises `OverflowError` (convert.py line 17 raises it even for a time code
`float()` happily parses, such as `"1e300"`). -/
def timedeltaOk (us : Int) : Bool :=
  decide (-999999999 ≤ us.fdiv usPerDay) && decide (us.fdiv usPerDay ≤ 999999999)

/-- `format_time` behind the `float(time)` parse and the `timedelta`
construction: `none` stands for an input string `float()` raises on
(non-numeric, in which case the exception propagates) — and, through
`timedeltaOk`, for a parseable time code whose duration overflows
`timedelta`'s range, where line 17 raises `OverflowError` instead of
returning a string.  Only in-range values are formatted. -/
def format_time_checked : Option Int → Option String
  | none => none
  | some us => if timedeltaOk us then some (format_time us) else none

/-- Embedding of `generate_timestamp` (convert.py lines 24–34). -/
def generate_timestamp (start_time end_time : Int) : String :=
  format_time start_time ++ " --> " ++ format_time end_time

/-- One annotation child of a `Turn`: a `Sync` element (attribute `time`,
in microseconds) or an `Event` element (attribute `desc`), each carrying
its trailing text, `none` when the XML node's `tail` is `None`. -/
inductive Ann where
  | sync (time : Int) (tail : Option String)
  | event (desc : String) (tail : Option String)
deriving DecidableEq

/-- Trailing text of an annotation. -/
def Ann.tailText : Ann → Option String
  | .sync _ t => t
  | .event _ t => t

/-- A `Turn` element: optional `speaker` attribute, `startTime` and
`endTime` attributes (microseconds), and its annotation children in
document order. -/
structure Turn where
  speaker : Option String
  startTime : Int
  endTime : Int
  anns : List Ann
deriving DecidableEq

/-- The parsed TRS document: the speaker table entries (`id`, `name`) in
document order, and the `Section` elements of the `Episode`, each a list
of `Turn`s. -/
structure TrsDoc where
  speakers : List (String × String)
  sections : List (List Turn)
deriving DecidableEq

/-- The Python exceptions the walk can raise: `KeyError` from
`noise[annotation.attrib["desc"]]`, `AttributeError` from
`annotation.tail.strip()` when `tail` is `None`, and `OverflowError`
from `timedelta(seconds=...)` inside `generate_timestamp`
(convert.py lines 99 and 112) when an emitted cue's time code lies
outside `timedelta`'s representable range. -/
inductive ConvError where
  | unknownEventCode (desc : String)
  | attributeError
  | overflowError
deriving DecidableEq

/-- The fixed noise table of `convert` (convert.py lines 56–66); `none` is
a `KeyError`. -/
def noiseMap (desc : String) : Option String :=
  if desc = "COUGH" then some " <i>(coughs)</i> "
  else if desc = "EE-HESITATION" then some " <i>(hesitates)</i> "
  else if desc = "LAUGHTER" then some " <i>(laughs)</i> "
  else if desc = "LIP_SMACK" then some " <i>(smacks lips)</i> "
  else if desc = "LOUD_BREATH" then some " <i>(breaths loudly)</i> "
  else if desc = "NOISE" then some " <i>(noise)</i> "
  else if desc = "SILENCE" then some " <i>(silence)</i> "
  else if desc = "UH-HUH" then some " <i>(uh-huh)</i> "
  else if desc = "UNINTELLIGIBLE" then some " <i>(unintelligible)</i> "
  else none

/-- Python's `str.strip()` on the character list: drop whitespace from
both ends. -/
def pyStripL (l : List Char) : List Char :=
  ((l.dropWhile Char.isWhitespace).reverse.dropWhile Char.isWhitespace).reverse

/-- Python's `str.strip()`. -/
def pyStrip (s : String) : String := ⟨pyStripL s.data⟩

/-- Dict lookup `speakers.get(k)` where the dict is built by a
comprehension (a later binding for the same id overwrites an earlier
one): the last matching entry wins, absence is `none`. -/
def speakersFind (tbl : List (String × String)) (k : String) : Option String :=
  tbl.foldl (fun acc p => if p.1 = k then some p.2 else acc) none

/-- `speakers.get(turn.attrib.get("speaker", ""), "")` (convert.py line 86). -/
def speakersGet (tbl : List (String × String)) (k : String) : String :=
  (speakersFind tbl k).getD ""

/-- The `"<v {}>".format(speaker)` prefix string of a turn
(convert.py lines 86–87). -/
def speakerVTag (tbl : List (String × String)) (t : Turn) : String :=
  "<v " ++ speakersGet tbl (t.speaker.getD "") ++ ">"

/-- An emitted cue: the raw accumulated text together with the time range;
the text line of the rendered block strips the text and optionally adds
the speaker prefix, exactly as lines 100 and 113 of convert.py do. -/
structure Cue where
  start : Int
  stop : Int
  text : String
deriving DecidableEq

/-- One step of the annotation loop of `convert` (convert.py lines 91–109)
on the state `(start_time, text, cues)`.  On a `Sync`: if `text` is
non-empty a cue `(start_time, time, text)` is emitted — at that moment
the program renders `generate_timestamp(start_time, end_time)` (line 99),
which raises `OverflowError` when either time code lies outside
`timedelta`'s range, before the tail is touched — and `text` is reset;
then the trailing text is stripped and appended (`AttributeError` when
absent) and `start_time` becomes the sync time.  On an `Event`: with
noise preservation the noise markup is looked up (`KeyError` when the
code is unknown) and appended, then the trailing text is stripped and
appended; no time is formatted. -/
def turnStep (preserve_noise : Bool) (st : Int × String × List Cue) (a : Ann) :
    Except ConvError (Int × String × List Cue) :=
  match st, a with
  | (start, text, cues), .sync time tail =>
    if text = "" ∨ (timedeltaOk start && timedeltaOk time) = true then
      let cues' := if text = "" then cues else cues ++ [⟨start, time, text⟩]
      let text' := if text = "" then text else ""
      match tail with
      | none => .error .attributeError
      | some s => .ok (time, text' ++ pyStrip s, cues')
    else .error .overflowError
  | (start, text, cues), .event desc tail =>
    match (if preserve_noise then (noiseMap desc).map (text ++ ·) else some text) with
    | none => .error (.unknownEventCode desc)
    | some t =>
      match tail with
      | none => .error .attributeError
      | some s => .ok (start, t ++ pyStrip s, cues)

/-- The annotation loop of `convert` over a whole list. -/
def runAnns (preserve_noise : Bool) :
    List Ann → Int × String × List Cue → Except ConvError (Int × String × List Cue)
  | [], st => .ok st
  | a :: rest, st =>
    match turnStep preserve_noise st a with
    | .error e => .error e
    | .ok st' => runAnns preserve_noise rest st'

/-- The cues one `Turn` contributes (convert.py lines 85–114): the loop is
started at `(turn.startTime, "", [])` and a final cue up to
`turn.endTime` is emitted when text is left over — that final emission
renders `generate_timestamp(start_time, turn.endTime)` (line 112), which
raises `OverflowError` when either time code lies outside `timedelta`'s
range. -/
def runTurn (preserve_noise : Bool) (t : Turn) : Except ConvError (List Cue) :=
  match runAnns preserve_noise t.anns (t.startTime, "", []) with
  | .error e => .error e
  | .ok (start, text, cues) =>
    if text = "" ∨ (timedeltaOk start && timedeltaOk t.endTime) = true then
      .ok (if text = "" then cues else cues ++ [⟨start, t.endTime, text⟩])
    else .error .overflowError

/-- The text line of a cue block:
`add_speakers * speaker_prefix + text.strip()` (convert.py lines 100, 113). -/
def cueTextLine (add_speakers : Bool) (pre : String) (c : Cue) : String :=
  (if add_speakers then pre else "") ++ pyStrip c.text

/-- The three lines one cue appends to `vtt_lines`: the timestamp line,
the text line and the blank separator. -/
def cueLines (add_speakers : Bool) (pre : String) (c : Cue) : List String :=
  [generate_timestamp c.start c.stop, cueTextLine add_speakers pre c, ""]

/-- The lines one turn appends to `vtt_lines`. -/
def turnLines (add_speakers preserve_noise : Bool) (tbl : List (String × String))
    (t : Turn) : Except ConvError (List String) :=
  match runTurn preserve_noise t with
  | .error e => .error e
  | .ok cues => .ok (cues.map (cueLines add_speakers (speakerVTag tbl t))).flatten

/-- The lines a list of turns appends, in document order. -/
def runTurns (add_speakers preserve_noise : Bool) (tbl : List (String × String)) :
    List Turn → Except ConvError (List String)
  | [] => .ok []
  | t :: rest =>
    match turnLines add_speakers preserve_noise tbl t with
    | .error e => .error e
    | .ok ls =>
      match runTurns add_speakers preserve_noise tbl rest with
      | .error e => .error e
      | .ok ls' => .ok (ls ++ ls')

/-- The lines the sections of the episode append, in document order. -/
def runSections (add_speakers preserve_noise : Bool) (tbl : List (String × String)) :
    List (List Turn) → Except ConvError (List String)
  | [] => .ok []
  | sec :: rest =>
    match runTurns add_speakers preserve_noise tbl sec with
    | .error e => .error e
    | .ok ls =>
      match runSections add_speakers preserve_noise tbl rest with
      | .error e => .error e
      | .ok ls' => .ok (ls ++ ls')

/-- Embedding of `convert` (convert.py lines 37–116) up to the final
`"\n".join`: the list `vtt_lines`.  The header is `WEBVTT`, a
`Language:` line when the language tag is non-empty (Python truthiness of
`language`), and a blank line; then the turns' cue blocks in document
order. -/
def convert_lines (doc : TrsDoc) (language : String)
    (add_speakers : Bool := false) (preserve_noise : Bool := false) :
    Except ConvError (List String) :=
  match runSections add_speakers preserve_noise doc.speakers doc.sections with
  | .error e => .error e
  | .ok body =>
    .ok ((["WEBVTT"] ++ (if language = "" then [] else ["Language: " ++ language]) ++ [""])
          ++ body)

/-- Embedding of `convert`: the returned string is the joined lines. -/
def convert (doc : TrsDoc) (language : String)
    (add_speakers : Bool := false) (preserve_noise : Bool := false) :
    Except ConvError String :=
  match convert_lines doc language add_speakers preserve_noise with
  | .error e => .error e
  | .ok ls => .ok (String.intercalate "\n" ls)

/-! Observation predicates used to state the claims. -/

/-- Number of characters after the last `.` of `l` (every `format_time`
result contains a `.`): the fractional digit count of a rendered time. -/
def fracLen (l : List Char) : Nat := (l.reverse.takeWhile (fun c => c != '.')).length

/-- Exact shape `HH:MM:SS.mmm` with two-digit `HH` — twelve characters. -/
def isHHMMSSmmm12 : List Char → Bool
  | [h1, h2, c1, m1, m2, c2, s1, s2, d, f1, f2, f3] =>
    h1.isDigit && h2.isDigit && (c1 == ':') && m1.isDigit && m2.isDigit && (c2 == ':')
      && s1.isDigit && s2.isDigit && (d == '.') && f1.isDigit && f2.isDigit && f3.isDigit
  | _ => false

/-- Shape `HH:MM:SS.mmm` where `HH` is any run of at least two digits and
`MM`, `SS`, `mmm` are exactly 2, 2 and 3 digits — the form the spec
prescribes for long durations. -/
def isVttTimeShape (l : List Char) : Bool :=
  let hh := l.takeWhile Char.isDigit
  decide (2 ≤ hh.length) &&
    (match l.drop hh.length with
     | [c1, m1, m2, c2, s1, s2, d, f1, f2, f3] =>
       (c1 == ':') && m1.isDigit && m2.isDigit && (c2 == ':') && s1.isDigit && s2.isDigit
         && (d == '.') && f1.isDigit && f2.isDigit && f3.isDigit
     | _ => false)

/-- Time attribute of a `Sync` annotation. -/
def Ann.syncTime? : Ann → Option Int
  | .sync t _ => some t
  | .event _ _ => none

/-- The `Sync` times of an annotation list, in document order. -/
def syncTimes (anns : List Ann) : List Int := anns.filterMap Ann.syncTime?

/-- Temporal monotonicity of one turn: `startTime`, then the sync times in
document order, then `endTime`, are non-decreasing. -/
def TurnMono (t : Turn) : Prop :=
  List.Chain' (· ≤ ·) (t.startTime :: syncTimes t.anns ++ [t.endTime])

/-- All turns of the document in document order (sections flattened). -/
def turnsOf (doc : TrsDoc) : List Turn := doc.sections.flatten

/-- Temporal monotonicity of the document: every turn is monotone and each
turn ends no later than the next one starts. -/
def DocMono (doc : TrsDoc) : Prop :=
  (∀ t ∈ turnsOf doc, TurnMono t) ∧
    List.Chain' (fun a b => a.endTime ≤ b.startTime) (turnsOf doc)

/-- The cues a list of turns emits, in document order. -/
def cuesOfTurns (preserve_noise : Bool) : List Turn → Except ConvError (List Cue)
  | [] => .ok []
  | t :: rest =>
    match runTurn preserve_noise t with
    | .error e => .error e
    | .ok cs =>
      match cuesOfTurns preserve_noise rest with
      | .error e => .error e
      | .ok cs' => .ok (cs ++ cs')

/-- The cues the whole conversion emits, in document order. -/
def cuesOfDoc (doc : TrsDoc) (preserve_noise : Bool) : Except ConvError (List Cue) :=
  cuesOfTurns preserve_noise (turnsOf doc)

/-- The endpoints of the cues, flattened in order: cue ranges are
monotonically non-decreasing exactly when this list is a `≤`-chain. -/
def rangesOf (cs : List Cue) : List Int := (cs.map (fun c => [c.start, c.stop])).flatten

/-- Every annotation of the list carries trailing text. -/
def annsTailsSome (anns : List Ann) : Bool := anns.all (fun a => a.tailText.isSome)

/-- Every `Sync` and `Event` of the document carries trailing text. -/
def docTailsSome (doc : TrsDoc) : Bool := (turnsOf doc).all (fun t => annsTailsSome t.anns)

/-- The time attribute of the annotation (if any) is within `timedelta`'s
representable range. -/
def annTimesOk : Ann → Bool
  | .sync t _ => timedeltaOk t
  | .event _ _ => true

/-- Every time code the walk can hand to `generate_timestamp` while
processing this turn — its `startTime`, its sync times and its
`endTime` — is within `timedelta`'s representable range. -/
def turnTimesOk (t : Turn) : Bool :=
  timedeltaOk t.startTime && timedeltaOk t.endTime && t.anns.all annTimesOk

/-- Every time code of the document is within `timedelta`'s range, so no
`OverflowError` can interrupt the walk. -/
def docTimesOk (doc : TrsDoc) : Bool := (turnsOf doc).all turnTimesOk

/-- Scan guaranteeing that the marker `<v ` cannot occur: every `<` is
immediately followed by `i` or `/` (as in every noise markup) and the
text does not end in `<`. -/
def ltOk : List Char → Bool
  | [] => true
  | [c] => c != '<'
  | c1 :: c2 :: rest => (c1 != '<' || c2 == 'i' || c2 == '/') && ltOk (c2 :: rest)

/-- Descriptive code of the first `Event` of the list whose code the noise
table does not know, if any. -/
def annsFirstUnknown : List Ann → Option String
  | [] => none
  | .sync _ _ :: rest => annsFirstUnknown rest
  | .event d _ :: rest => if (noiseMap d).isSome then annsFirstUnknown rest else some d

/-- First unknown event code of a turn list, in document order. -/
def turnsFirstUnknown : List Turn → Option String
  | [] => none
  | t :: rest =>
    match annsFirstUnknown t.anns with
    | some d => some d
    | none => turnsFirstUnknown rest

/-- First unknown event code of the document, in document order. -/
def docFirstUnknown (doc : TrsDoc) : Option String := turnsFirstUnknown (turnsOf doc)

/-- The trailing text of the annotation contains no `<` character (an
absent tail counts as clean; the conversion fails on it anyway). -/
def tailClean (a : Ann) : Bool :=
  match a.tailText with
  | none => true
  | some s => s.data.all (fun c => c != '<')

/-- No trailing text anywhere in the document contains a `<` character. -/
def docTextClean (doc : TrsDoc) : Bool := (turnsOf doc).all (fun t => t.anns.all tailClean)

/-! Concrete documents used by counterexamples and witnesses. -/

/-- The document of the end-to-end scenario of the spec: one speaker, one
section, one turn `0 → 5` s with a single `Sync` at `2` s whose trailing
text is `"Hello there"`. -/
def docC1 : TrsDoc :=
  { speakers := [("spk1", "Alice")],
    sections := [[{ speaker := some "spk1", startTime := 0, endTime := 5000000,
                    anns := [.sync 2000000 (some "Hello there")] }]] }

/-- A monotone turn whose middle `Sync` carries only empty trailing text:
the cue emitted before it ends at `2` s, the one after it starts at `3` s. -/
def turnC3 : Turn :=
  { speaker := none, startTime := 0, endTime := 10000000,
    anns := [.sync 1000000 (some "a"), .sync 2000000 (some ""),
             .sync 3000000 (some "b")] }

/-- A monotone single-turn document for the C3 witness. -/
def docC3w : TrsDoc :=
  { speakers := [],
    sections := [[{ speaker := none, startTime := 0, endTime := 2000000,
                    anns := [.sync 1000000 (some "a")] }]] }

/-- A turn emitting one cue, for the C6 witness. -/
def turnC6w : Turn :=
  { speaker := none, startTime := 0, endTime := 2000000,
    anns := [.sync 1000000 (some " hi ")] }

/-- A document whose only event code, `"FOO"`, is not in the noise table;
every annotation carries trailing text. -/
def docC7w : TrsDoc :=
  { speakers := [],
    sections := [[{ speaker := none, startTime := 0, endTime := 5000000,
                    anns := [.sync 1000000 (some "x"), .event "FOO" (some "y")] }]] }

/-- A document whose only event code `"FOO"` is unknown and whose tails
are all present, but whose first `Sync` time is `86400000000000000000` µs
(`10⁹` days, one past `timedelta`'s maximum): the second `Sync` renders a
timestamp from it and raises `OverflowError` before the `Event` is ever
reached. -/
def docC7x : TrsDoc :=
  { speakers := [],
    sections := [[{ speaker := none, startTime := 0, endTime := 5000000,
                    anns := [.sync 86400000000000000000 (some "hi"),
                             .sync 1000000 (some "x"),
                             .event "FOO" (some "y")] }]] }

/-- A document whose trailing text contains the marker `<v ` verbatim. -/
def docC8x : TrsDoc :=
  { speakers := [],
    sections := [[{ speaker := none, startTime := 0, endTime := 5000000,
                    anns := [.sync 1000000 (some "see <v tag")] }]] }

/-- A clean document with a resolvable speaker, for the C8 witness. -/
def docC8w : TrsDoc :=
  { speakers := [("spk1", "Alice")],
    sections := [[{ speaker := some "spk1", startTime := 0, endTime := 5000000,
                    anns := [.sync 1000000 (some "hi")] }]] }

/-- A small document for the C9 witness. -/
def docC9w : TrsDoc :=
  { speakers := [],
    sections := [[{ speaker := none, startTime := 0, endTime := 2000000,
                    anns := [.sync 1000000 (some "hey")] }]] }

/-- A document with a single `Event` whose code is unknown and whose tail
is absent: with noise preservation on, the table lookup fails before the
tail is touched. -/
def docC10x : TrsDoc :=
  { speakers := [],
    sections := [[{ speaker := none, startTime := 0, endTime := 5000000,
                    anns := [.event "FOO" none] }]] }

/-- A document with a `Sync` whose tail is absent, for the C10 witness. -/
def docC10w : TrsDoc :=
  { speakers := [],
    sections := [[{ speaker := none, startTime := 0, endTime := 5000000,
                    anns := [.sync 1000000 none, .sync 2000000 (some "x")] }]] }

/-! Basic lemmas about the digit rendering. -/

theorem digitChar_isDigit (n : Nat) : (digitChar n).isDigit = true := by
  have h : n % 10 < 10 := Nat.mod_lt _ (by norm_num)
  unfold digitChar
  set k := n % 10 with hk
  interval_cases k <;> decide

theorem isDigit_ne_dot {c : Char} (h : c.isDigit = true) : c ≠ '.' := by
  rintro rfl; exact absurd h (by decide)

theorem isDigit_ne_colon {c : Char} (h : c.isDigit = true) : c ≠ ':' := by
  rintro rfl; exact absurd h (by decide)

theorem isDigit_ne_lt {c : Char} (h : c.isDigit = true) : c ≠ '<' := by
  rintro rfl; exact absurd h (by decide)

theorem natReprAux_mem_isDigit :
    ∀ (fuel n : Nat) (acc : List Char), (∀ c ∈ acc, c.isDigit = true) →
      ∀ c ∈ natReprAux fuel n acc, c.isDigit = true := by
  intro fuel
  induction fuel with
  | zero => intro n acc hacc c hc; exact hacc c hc
  | succ f ih =>
    intro n acc hacc c hc
    by_cases h : n < 10
    · simp only [natReprAux, if_pos h] at hc
      rw [List.mem_cons] at hc
      rcases hc with rfl | hc
      · exact digitChar_isDigit n
      · exact hacc c hc
    · simp only [natReprAux, if_neg h] at hc
      refine ih (n / 10) _ ?_ c hc
      intro d hd
      rw [List.mem_cons] at hd
      rcases hd with rfl | hd
      · exact digitChar_isDigit n
      · exact hacc d hd

theorem natRepr_mem_isDigit (n : Nat) : ∀ c ∈ natRepr n, c.isDigit = true :=
  natReprAux_mem_isDigit (n + 1) n [] (by intro c hc; cases hc)

theorem natReprAux_length :
    ∀ (fuel n : Nat) (acc : List Char), n < fuel →
      acc.length < (natReprAux fuel n acc).length := by
  intro fuel
  induction fuel with
  | zero => intro n acc h; omega
  | succ f ih =>
    intro n acc h
    by_cases h10 : n < 10
    · simp [natReprAux, if_pos h10]
    · simp only [natReprAux, if_neg h10]
      have hlt : n / 10 < n := Nat.div_lt_self (by omega) (by omega)
      have hn : n / 10 < f := by omega
      have := ih (n / 10) (digitChar n :: acc) hn
      simp at this
      omega

theorem natRepr_ne_nil (n : Nat) : natRepr n ≠ [] := by
  have := natReprAux_length (n + 1) n [] (by omega)
  intro h
  rw [natRepr] at h
  simp [h] at this

theorem natRepr_length_pos (n : Nat) : 0 < (natRepr n).length := by
  have := natReprAux_length (n + 1) n [] (by omega)
  simpa [natRepr] using this

theorem natRepr_lt_ten {n : Nat} (h : n < 10) : natRepr n = [digitChar n] := by
  simp [natRepr, natReprAux, if_pos h]

theorem natReprAux_succ (f n : Nat) (acc : List Char) :
    natReprAux (f + 1) n acc =
      if n < 10 then digitChar n :: acc else natReprAux f (n / 10) (digitChar n :: acc) := rfl

theorem natRepr_lt_hundred {n : Nat} (h10 : 10 ≤ n) (h : n < 100) :
    natRepr n = [digitChar (n / 10), digitChar n] := by
  obtain ⟨f, hf⟩ : ∃ f, n = f + 1 := ⟨n - 1, by omega⟩
  rw [natRepr, natReprAux_succ, if_neg (by omega : ¬ n < 10), hf, natReprAux_succ,
    if_pos (by omega : (f + 1) / 10 < 10), ← hf]

/-! C1 — the end-to-end scenario of the spec.  The code sets
`start_time = end_time` at every `Sync`, so the single cue of the scenario
ranges from the sync time `2` to the turn end `5`, not from the turn
start `0`: the claim's expected output is refuted and the actual output
proved. -/

/-- Counterexample to C1: on the scenario document the conversion emits
the cue range `00:00:02.000 --> 00:00:05.000`; the output differs from
the five lines the claim demands (whose third line is
`00:00:00.000 --> 00:00:05.000`). -/
theorem C1_scenario_ctrex :
    convert_lines docC1 "" = .ok
        ["WEBVTT", "", "00:00:02.000 --> 00:00:05.000", "Hello there", ""] ∧
      convert_lines docC1 "" ≠ .ok
        ["WEBVTT", "", "00:00:00.000 --> 00:00:05.000", "Hello there", ""] := by
  constructor
  · rfl
  · intro h
    rw [show convert_lines docC1 "" = .ok
          ["WEBVTT", "", "00:00:02.000 --> 00:00:05.000", "Hello there", ""] from rfl] at h
    simp at h

/-- C1 amended: the scenario document converts (language empty, speakers
and noise off) to exactly the lines `WEBVTT`, blank,
`00:00:02.000 --> 00:00:05.000`, `Hello there`, blank — the cue starts at
the `Sync` time `2` because every sync point becomes the new reference
start. -/
theorem C1_scenario :
    convert_lines docC1 "" = .ok
      ["WEBVTT", "", "00:00:02.000 --> 00:00:05.000", "Hello there", ""] := rfl

/-! C5 — failure behaviour of `format_time`. -/

/-- Counterexample to C5: the time code `-1` (i.e. `-1000000` µs) is a
negative numeric input, yet `format_time` does not fail — Python's
`timedelta` accepts negative durations — and returns the malformed string
`0-1 day, 23:.000`. -/
theorem C5_negative_ctrex :
    format_time_checked (some (-1000000)) = some "0-1 day, 23:.000" := rfl

/-- C5 amended: `format_time` fails if and only if either its input
cannot be parsed as a real number at all (`none` under the parse
abstraction) or the parsed duration overflows `timedelta`'s
±999999999-day range — a parseable huge time code such as `1e300`
seconds does fail, with `OverflowError` rather than a parse error.
Non-negativity is not what is required: a negative in-range numeric
input such as `-1` succeeds and yields a (malformed) string. -/
theorem C5_fail_iff_unparseable_or_overflow :
    (∀ us : Int, format_time_checked (some us) = none ↔ timedeltaOk us = false) ∧
      format_time_checked none = none ∧
      format_time_checked (some 1000000000000000000000000) = none := by
  refine ⟨?_, rfl, by decide⟩
  intro us
  unfold format_time_checked
  by_cases h : timedeltaOk us = true
  · simp [h]
  · simp only [Bool.not_eq_true] at h
    simp [h]

/-! Structural lemmas about `timedeltaStr` and `format_time`. -/

theorem digitChar_bne_dot (n : Nat) : (digitChar n != '.') = true :=
  bne_iff_ne.mpr (isDigit_ne_dot (digitChar_isDigit n))

theorem timedeltaStr_small (n : Nat) (h : n < 86400000000) :
    timedeltaStr (n : Int) =
      natRepr (n / 1000000 / 3600) ++ ':' :: pad2 (n / 1000000 % 3600 / 60)
        ++ ':' :: pad2 (n / 1000000 % 60)
        ++ (if n % 1000000 = 0 then [] else '.' :: pad6 (n % 1000000)) := by
  have hb : (0 : Int) ≤ usPerDay := by norm_num [usPerDay]
  have hn0 : (0 : Int) ≤ (n : Int) := Int.ofNat_nonneg n
  have hlt : (n : Int) < usPerDay := by
    have : (n : Int) < (86400000000 : Nat) := by exact_mod_cast h
    simpa [usPerDay] using this
  have hfd : (n : Int).fdiv usPerDay = 0 := by
    rw [Int.fdiv_eq_ediv _ hb]
    exact Int.ediv_eq_zero_of_lt hn0 hlt
  have hfm : ((n : Int).fmod usPerDay).toNat = n := by
    rw [Int.fmod_eq_emod _ hb, Int.emod_eq_of_lt hn0 hlt, Int.toNat_ofNat]
  simp only [timedeltaStr, hfd, hfm, if_pos rfl]
  by_cases hm : n % 1000000 = 0 <;> simp [hm]

theorem mem_pad2_isDigit (n : Nat) : ∀ x ∈ pad2 n, x.isDigit = true := by
  intro x hx
  simp only [pad2, List.mem_cons, List.not_mem_nil, or_false] at hx
  rcases hx with h | h <;> (rw [h]; exact digitChar_isDigit _)

theorem mem_pad6_isDigit (n : Nat) : ∀ x ∈ pad6 n, x.isDigit = true := by
  intro x hx
  simp only [pad6, List.mem_cons, List.not_mem_nil, or_false] at hx
  rcases hx with h | h | h | h | h | h <;> (rw [h]; exact digitChar_isDigit _)

theorem mem_hms (a b c : Nat) :
    ∀ x ∈ natRepr a ++ ':' :: pad2 b ++ ':' :: pad2 c, x.isDigit = true ∨ x = ':' := by
  intro x hx
  rcases List.mem_append.mp hx with h | h
  · rcases List.mem_append.mp h with h2 | h2
    · exact Or.inl (natRepr_mem_isDigit a x h2)
    · rcases List.mem_cons.mp h2 with h3 | h3
      · exact Or.inr h3
      · exact Or.inl (mem_pad2_isDigit b x h3)
  · rcases List.mem_cons.mp h with h3 | h3
    · exact Or.inr h3
    · exact Or.inl (mem_pad2_isDigit c x h3)

theorem dot_not_mem_hms (a b c : Nat) :
    '.' ∉ natRepr a ++ ':' :: pad2 b ++ ':' :: pad2 c := by
  intro h
  rcases mem_hms a b c '.' h with hd | hc
  · exact absurd hd (by decide)
  · exact absurd hc (by decide)

theorem dot_not_mem_intRepr (z : Int) : '.' ∉ intRepr z := by
  intro h
  unfold intRepr at h
  split at h
  · rw [List.mem_cons] at h
    rcases h with h | h
    · exact absurd h (by decide)
    · exact absurd (natRepr_mem_isDigit _ _ h) (by decide)
  · exact absurd (natRepr_mem_isDigit _ _ h) (by decide)

theorem format_time_data_of_not_dot {us : Int} (h : '.' ∉ (timedeltaStr us).take 11) :
    (format_time us).data = '0' :: (timedeltaStr us).take 11 ++ '.' :: ['0', '0', '0'] := by
  unfold format_time
  rw [if_neg ?hne]
  case hne =>
    intro hmem
    rw [List.mem_cons] at hmem
    rcases hmem with hmem | hmem
    · exact absurd hmem (by decide)
    · exact h hmem

theorem format_time_data_of_dot {us : Int} (h : '.' ∈ (timedeltaStr us).take 11) :
    (format_time us).data =
      ('0' :: (timedeltaStr us).take 11)
        ++ List.replicate (12 - ('0' :: (timedeltaStr us).take 11).length) '0' := by
  unfold format_time
  rw [if_pos (List.mem_cons_of_mem _ h)]

theorem takeWhile_append_all {p : Char → Bool} :
    ∀ {a b : List Char}, (∀ c ∈ a, p c = true) → (a ++ b).takeWhile p = a ++ b.takeWhile p := by
  intro a
  induction a with
  | nil => intro b h; simp
  | cons x xs ih =>
    intro b h
    have hx : p x = true := h x (List.mem_cons_self x xs)
    simp only [List.cons_append, List.takeWhile_cons, hx, if_pos]
    rw [ih (fun c hc => h c (List.mem_cons_of_mem x hc))]

theorem fracLen_append_dot (x r : List Char) (h : '.' ∉ r) :
    fracLen (x ++ '.' :: r) = r.length := by
  unfold fracLen
  rw [List.reverse_append, List.reverse_cons]
  have hall : ∀ c ∈ r.reverse, (c != '.') = true := by
    intro c hc
    rw [List.mem_reverse] at hc
    exact bne_iff_ne.mpr (fun hcd => h (hcd ▸ hc))
  rw [List.append_assoc, List.singleton_append, takeWhile_append_all hall]
  simp [List.takeWhile_cons]

theorem intRepr_length_pos (z : Int) : 0 < (intRepr z).length := by
  unfold intRepr
  split
  · simp
  · exact natRepr_length_pos _

theorem natRepr_length_le_two {n : Nat} (h : n < 100) : (natRepr n).length ≤ 2 := by
  by_cases h10 : n < 10
  · rw [natRepr_lt_ten h10]; simp
  · rw [natRepr_lt_hundred (by omega) h]; simp

theorem timedeltaStr_days {us : Int} (hd : us.fdiv usPerDay ≠ 0) :
    timedeltaStr us =
      (intRepr (us.fdiv usPerDay)
          ++ (if us.fdiv usPerDay = 1 ∨ us.fdiv usPerDay = -1 then " day, ".data
              else " days, ".data)
          ++ (natRepr ((us.fmod usPerDay).toNat / 1000000 / 3600)
              ++ ':' :: pad2 ((us.fmod usPerDay).toNat / 1000000 % 3600 / 60)
              ++ ':' :: pad2 ((us.fmod usPerDay).toNat / 1000000 % 60)))
        ++ (if (us.fmod usPerDay).toNat % 1000000 = 0 then []
            else '.' :: pad6 ((us.fmod usPerDay).toNat % 1000000)) := by
  simp only [timedeltaStr, if_neg hd]
  by_cases hm : (us.fmod usPerDay).toNat % 1000000 = 0 <;> simp [hm]

theorem fracLen_format_time_days {us : Int} (hd : us.fdiv usPerDay ≠ 0) :
    fracLen (format_time us).data = 3 := by
  have hlen : 11 ≤
      (intRepr (us.fdiv usPerDay)
        ++ (if us.fdiv usPerDay = 1 ∨ us.fdiv usPerDay = -1 then " day, ".data
            else " days, ".data)
        ++ (natRepr ((us.fmod usPerDay).toNat / 1000000 / 3600)
            ++ ':' :: pad2 ((us.fmod usPerDay).toNat / 1000000 % 3600 / 60)
            ++ ':' :: pad2 ((us.fmod usPerDay).toNat / 1000000 % 60))).length := by
    have h1 := intRepr_length_pos (us.fdiv usPerDay)
    have h2 := natRepr_length_pos ((us.fmod usPerDay).toNat / 1000000 / 3600)
    have h3 : (if us.fdiv usPerDay = 1 ∨ us.fdiv usPerDay = -1 then " day, ".data
        else " days, ".data).length = if us.fdiv usPerDay = 1 ∨ us.fdiv usPerDay = -1
          then 6 else 7 := by
      split <;> rfl
    simp only [List.length_append, List.length_cons, h3, pad2, List.length]
    split <;> omega
  have hdot : '.' ∉ (timedeltaStr us).take 11 := by
    rw [timedeltaStr_days hd, List.take_append_of_le_length hlen]
    intro hx
    have hx' := List.mem_of_mem_take hx
    rcases List.mem_append.mp hx' with h | h
    · rcases List.mem_append.mp h with h2 | h2
      · exact dot_not_mem_intRepr _ h2
      · revert h2
        split <;> decide
    · exact dot_not_mem_hms _ _ _ h
  rw [format_time_data_of_not_dot hdot]
  rw [fracLen_append_dot _ _ (by decide)]
  rfl

theorem fracLen_format_time_small_zero {n : Nat} (h : n < 86400000000)
    (hm : n % 1000000 = 0) : fracLen (format_time (n : Int)).data = 3 := by
  have hdot : '.' ∉ (timedeltaStr (n : Int)).take 11 := by
    rw [timedeltaStr_small n h, if_pos hm, List.append_nil]
    intro hx
    exact dot_not_mem_hms _ _ _ (List.mem_of_mem_take hx)
  rw [format_time_data_of_not_dot hdot]
  rw [fracLen_append_dot _ _ (by decide)]
  rfl

theorem fracLen_format_time_small_frac {n : Nat} (h : n < 86400000000)
    (hm : n % 1000000 ≠ 0) :
    fracLen (format_time (n : Int)).data = 4 - (natRepr (n / 1000000 / 3600)).length := by
  have hh24 : n / 1000000 / 3600 < 24 := by omega
  have hk1 : 1 ≤ (natRepr (n / 1000000 / 3600)).length := natRepr_length_pos _
  have hk2 : (natRepr (n / 1000000 / 3600)).length ≤ 2 := natRepr_length_le_two (by omega)
  set k := (natRepr (n / 1000000 / 3600)).length with hk
  have hhms : (natRepr (n / 1000000 / 3600) ++ ':' :: pad2 (n / 1000000 % 3600 / 60)
      ++ ':' :: pad2 (n / 1000000 % 60)).length = k + 6 := by
    simp only [List.length_append, List.length_cons, pad2, List.length, ← hk]
  have htake : (timedeltaStr (n : Int)).take 11 =
      (natRepr (n / 1000000 / 3600) ++ ':' :: pad2 (n / 1000000 % 3600 / 60)
        ++ ':' :: pad2 (n / 1000000 % 60)) ++ '.' :: (pad6 (n % 1000000)).take (4 - k) := by
    rw [timedeltaStr_small n h, if_neg hm, List.take_append_eq_append_take,
      List.take_of_length_le (by omega), hhms]
    congr 1
    have h11 : 11 - (k + 6) = (4 - k) + 1 := by omega
    rw [h11]
    rfl
  have hdot : '.' ∈ (timedeltaStr (n : Int)).take 11 := by
    rw [htake]
    exact List.mem_append.mpr (Or.inr (List.mem_cons_self _ _))
  have hlen : ('0' :: (timedeltaStr (n : Int)).take 11).length = 12 := by
    rw [htake]
    simp only [List.length_cons, List.length_append, hhms, List.length_take, pad6,
      List.length]
    omega
  rw [format_time_data_of_dot hdot, hlen]
  simp only [Nat.sub_self, List.replicate_zero, List.append_nil]
  rw [htake]
  have : ('0' : Char) :: ((natRepr (n / 1000000 / 3600) ++ ':' :: pad2 (n / 1000000 % 3600 / 60)
      ++ ':' :: pad2 (n / 1000000 % 60)) ++ '.' :: (pad6 (n % 1000000)).take (4 - k)) =
      ('0' :: (natRepr (n / 1000000 / 3600) ++ ':' :: pad2 (n / 1000000 % 3600 / 60)
      ++ ':' :: pad2 (n / 1000000 % 60))) ++ '.' :: (pad6 (n % 1000000)).take (4 - k) := by
    simp
  rw [this, fracLen_append_dot _ _ ?hnd, List.length_take]
  case hnd =>
    intro hx
    have hx' := List.mem_of_mem_take hx
    exact absurd (mem_pad6_isDigit _ _ hx') (by decide)
  simp only [pad6, List.length]
  omega

/-! C4 — the fractional part is truncated, never padded beyond 3 digits. -/

/-- The slice `[:11]` bounds the fractional part of every `format_time`
output by 3 digits, for every input whatsoever — the formatter truncates,
it never pads beyond 3 digits. -/
theorem C4_never_more_than_three (us : Int) : fracLen (format_time us).data ≤ 3 := by
  by_cases hd : us.fdiv usPerDay = 0
  · have hadd := Int.fmod_add_fdiv us usPerDay
    rw [hd] at hadd
    simp only [Int.mul_zero, Int.add_zero] at hadd
    have hb : (0 : Int) < usPerDay := by norm_num [usPerDay]
    have hnn : 0 ≤ us := by
      rw [← hadd, Int.fmod_eq_emod _ (Int.le_of_lt hb)]
      exact Int.emod_nonneg us (by norm_num [usPerDay])
    have hub : us < usPerDay := by
      rw [← hadd, Int.fmod_eq_emod _ (Int.le_of_lt hb)]
      exact Int.emod_lt_of_pos us hb
    obtain ⟨n, rfl⟩ : ∃ n : Nat, us = (n : Int) := ⟨us.toNat, (Int.toNat_of_nonneg hnn).symm⟩
    have hn : n < 86400000000 := by
      have : (n : Int) < (86400000000 : Int) := by simpa [usPerDay] using hub
      exact_mod_cast this
    by_cases hm : n % 1000000 = 0
    · rw [fracLen_format_time_small_zero hn hm]
    · rw [fracLen_format_time_small_frac hn hm]
      have := natRepr_length_pos (n / 1000000 / 3600)
      omega
  · rw [fracLen_format_time_days hd]

/-- C4 amended: `format_time` truncates rather than pads — an input with
more than 3 fractional digits (microseconds not a multiple of 1000)
yields exactly 3 fractional digits for times under 10 hours (and never
more than 3 for any time at all, by `C4_never_more_than_three`). -/
theorem C4_truncates_to_three (us : Int) (h0 : 0 ≤ us) (h1 : us < 36000000000)
    (h2 : us % 1000 ≠ 0) : fracLen (format_time us).data = 3 := by
  obtain ⟨n, rfl⟩ : ∃ n : Nat, us = (n : Int) := ⟨us.toNat, (Int.toNat_of_nonneg h0).symm⟩
  have hn : n < 36000000000 := by exact_mod_cast h1
  have hm : n % 1000 ≠ 0 := by
    intro hc
    apply h2
    have : ((n % 1000 : Nat) : Int) = (n : Int) % 1000 := Int.ofNat_emod n 1000
    omega
  have hm6 : n % 1000000 ≠ 0 := by
    intro hc
    apply hm
    have hmm := Nat.mod_mod_of_dvd n (by norm_num : (1000 : Nat) ∣ 1000000)
    omega
  rw [fracLen_format_time_small_frac (by omega) hm6]
  have : n / 1000000 / 3600 < 10 := by omega
  rw [natRepr_lt_ten this]
  rfl

/-- Counterexample to C4: at the input `1.2345` s (1234500 µs, more than
3 fractional digits) the output is `00:00:01.234` with exactly 3
fractional digits — truncated, not padded beyond 3, contradicting the
claim's asserted overflow at its designated kind of input (and by
`C4_never_more_than_three` no other input overflows either). -/
theorem C4_pad_only_ctrex :
    (1234500 : Int) % 1000 ≠ 0 ∧ format_time 1234500 = "00:00:01.234" ∧
      fracLen (format_time 1234500).data = 3 := ⟨by decide, by decide, by decide⟩

/-- Witness for C4's amended theorem at the input `1.2345` s
(1234500 µs): more than 3 fractional digits in, exactly 3 out. -/
theorem C4_truncates_witness :
    (0 : Int) ≤ 1234500 ∧ (1234500 : Int) < 36000000000 ∧ (1234500 : Int) % 1000 ≠ 0 ∧
      fracLen (format_time 1234500).data = 3 :=
  ⟨by decide, by decide, by decide,
    C4_truncates_to_three 1234500 (by decide) (by decide) (by decide)⟩

theorem char_zero_isDigit : ('0' : Char).isDigit = true := by decide

/-! C2 — shape of `format_time` output. -/

/-- C2 amended: for every time code under 10 hours (`us < 36000·10^6` µs)
the output is exactly 12 characters of the exact shape `HH:MM:SS.mmm`
with two-digit `HH`.  (Beyond 10 hours the claim fails, see the
counterexample.) -/
theorem C2_time_shape (us : Int) (h0 : 0 ≤ us) (h1 : us < 36000000000) :
    isHHMMSSmmm12 (format_time us).data = true ∧ (format_time us).data.length = 12 := by
  obtain ⟨n, rfl⟩ : ∃ n : Nat, us = (n : Int) := ⟨us.toNat, (Int.toNat_of_nonneg h0).symm⟩
  have hn : n < 36000000000 := by exact_mod_cast h1
  have hn' : n < 86400000000 := by omega
  have hh10 : n / 1000000 / 3600 < 10 := by omega
  by_cases hm : n % 1000000 = 0
  · have hdot : '.' ∉ (timedeltaStr (n : Int)).take 11 := by
      rw [timedeltaStr_small n hn', if_pos hm, List.append_nil]
      intro hx
      exact dot_not_mem_hms _ _ _ (List.mem_of_mem_take hx)
    rw [format_time_data_of_not_dot hdot, timedeltaStr_small n hn', if_pos hm,
      List.append_nil, natRepr_lt_ten hh10,
      List.take_of_length_le (by simp [pad2])]
    constructor
    · simp [isHHMMSSmmm12, pad2, digitChar_isDigit, char_zero_isDigit]
    · simp [pad2]
  · have htake : (timedeltaStr (n : Int)).take 11 =
        (natRepr (n / 1000000 / 3600) ++ ':' :: pad2 (n / 1000000 % 3600 / 60)
          ++ ':' :: pad2 (n / 1000000 % 60)) ++ '.' :: (pad6 (n % 1000000)).take 3 := by
      rw [timedeltaStr_small n hn', if_neg hm, List.take_append_eq_append_take,
        List.take_of_length_le ?hle]
      case hle => rw [natRepr_lt_ten hh10]; simp [pad2]
      have hl : (natRepr (n / 1000000 / 3600) ++ ':' :: pad2 (n / 1000000 % 3600 / 60)
          ++ ':' :: pad2 (n / 1000000 % 60)).length = 7 := by
        rw [natRepr_lt_ten hh10]; simp [pad2]
      rw [hl]
      rfl
    have hdot : '.' ∈ (timedeltaStr (n : Int)).take 11 := by
      rw [htake]
      exact List.mem_append.mpr (Or.inr (List.mem_cons_self _ _))
    have hlen : ('0' :: (timedeltaStr (n : Int)).take 11).length = 12 := by
      rw [htake, natRepr_lt_ten hh10]
      simp [pad2, pad6]
    rw [format_time_data_of_dot hdot, hlen]
    simp only [Nat.sub_self, List.replicate_zero, List.append_nil]
    rw [htake, natRepr_lt_ten hh10]
    constructor
    · simp [isHHMMSSmmm12, pad2, pad6, List.take, digitChar_isDigit, char_zero_isDigit]
    · simp [pad2, pad6]

/-- Counterexample to C2: at 10 hours plus half a second (36000.5 s) the
output is `010:00:00.50` — the fractional part has 2 digits, not 3, so
the claimed shape (`mmm` exactly 3 digits, in particular for inputs of 10
hours or more) fails. -/
theorem C2_ten_hours_ctrex :
    format_time 36000500000 = "010:00:00.50" ∧
      isVttTimeShape (format_time 36000500000).data = false ∧
      (0 : Int) ≤ 36000500000 := ⟨by decide, by decide, by decide⟩

/-- Witness for C2's amended theorem at 3661.5 s (`01:01:01.500`). -/
theorem C2_time_shape_witness :
    (0 : Int) ≤ 3661500000 ∧ (3661500000 : Int) < 36000000000 ∧
      isHHMMSSmmm12 (format_time 3661500000).data = true ∧
      (format_time 3661500000).data.length = 12 :=
  ⟨by decide, by decide, (C2_time_shape 3661500000 (by decide) (by decide)).1,
    (C2_time_shape 3661500000 (by decide) (by decide)).2⟩

/-! C9 — the language header line. -/

/-- C9: with an empty (absent) language tag the header is exactly
`WEBVTT` followed by the blank line — no `Language:` line is emitted
between them; with a non-empty tag the second line is exactly
`Language: <tag>`, after `WEBVTT` and before the header's blank line. -/
theorem C9_language_header (doc : TrsDoc) (sp pn : Bool) :
    (∀ out, convert_lines doc "" sp pn = .ok out → out.take 2 = ["WEBVTT", ""]) ∧
      (∀ lang out, lang ≠ "" → convert_lines doc lang sp pn = .ok out →
        out.take 3 = ["WEBVTT", "Language: " ++ lang, ""]) := by
  constructor
  · intro out h
    unfold convert_lines at h
    cases hb : runSections sp pn doc.speakers doc.sections with
    | error e => rw [hb] at h; cases h
    | ok body =>
      rw [hb] at h
      simp only [Except.ok.injEq] at h
      rw [← h]
      simp
  · intro lang out hlang h
    unfold convert_lines at h
    cases hb : runSections sp pn doc.speakers doc.sections with
    | error e => rw [hb] at h; cases h
    | ok body =>
      rw [hb] at h
      simp only [Except.ok.injEq] at h
      rw [← h]
      simp [if_neg hlang]

/-- Witness for C9 on a concrete document, with tag absent and with
tag `"en"`. -/
theorem C9_language_header_witness :
    ["WEBVTT", "", "00:00:01.000 --> 00:00:02.000", "hey", ""].take 2 = ["WEBVTT", ""] ∧
      (("en" : String) ≠ "") ∧
      ["WEBVTT", "Language: en", "", "00:00:01.000 --> 00:00:02.000", "hey", ""].take 3
        = ["WEBVTT", "Language: en", ""] :=
  ⟨(C9_language_header docC9w false false).1 _ rfl, by decide,
    (C9_language_header docC9w false false).2 "en" _ (by decide) rfl⟩

/-! Inversion and construction lemmas for the guarded walk steps. -/

theorem turnStep_sync_ok {pn : Bool} {start time : Int} {text : String} {cues : List Cue}
    {tail : Option String} {st1 : Int × String × List Cue}
    (h : turnStep pn (start, text, cues) (.sync time tail) = .ok st1) :
    ∃ s, tail = some s ∧
      st1 = (time, (if text = "" then text else "") ++ pyStrip s,
        if text = "" then cues else cues ++ [⟨start, time, text⟩]) := by
  simp only [turnStep] at h
  split at h
  · cases tail with
    | none => cases h
    | some s => exact ⟨s, rfl, (Except.ok.inj h).symm⟩
  · cases h

theorem turnStep_sync_some_eq {pn : Bool} {start time : Int} {text : String}
    {cues : List Cue} (s : String)
    (hC : text = "" ∨ (timedeltaOk start && timedeltaOk time) = true) :
    turnStep pn (start, text, cues) (.sync time (some s)) =
      .ok (time, (if text = "" then text else "") ++ pyStrip s,
        if text = "" then cues else cues ++ [⟨start, time, text⟩]) := by
  simp only [turnStep, if_pos hC]

theorem turnStep_sync_error {pn : Bool} {start time : Int} {text : String}
    {cues : List Cue} {tail : Option String} {e : ConvError}
    (h : turnStep pn (start, text, cues) (.sync time tail) = .error e) :
    e = .attributeError ∨ e = .overflowError := by
  simp only [turnStep] at h
  split at h
  · cases tail with
    | none => exact Or.inl (Except.error.inj h).symm
    | some s => cases h
  · exact Or.inr (Except.error.inj h).symm

theorem turnStep_sync_error_ok_times {pn : Bool} {start time : Int} {text : String}
    {cues : List Cue} {tail : Option String} {e : ConvError}
    (hs : timedeltaOk start = true) (ht : timedeltaOk time = true)
    (h : turnStep pn (start, text, cues) (.sync time tail) = .error e) :
    e = .attributeError := by
  simp only [turnStep] at h
  split at h
  · cases tail with
    | none => exact (Except.error.inj h).symm
    | some s => cases h
  · rename_i hC
    exact absurd (Or.inr (by rw [hs, ht]; rfl)) hC

theorem runTurn_error_eq {pn : Bool} {t : Turn} {e : ConvError}
    (ha : runAnns pn t.anns (t.startTime, "", []) = .error e) :
    runTurn pn t = .error e := by
  unfold runTurn
  rw [ha]

theorem runTurn_ok_eq {pn : Bool} {t : Turn} {start : Int} {text : String}
    {cues : List Cue}
    (ha : runAnns pn t.anns (t.startTime, "", []) = .ok (start, text, cues)) :
    runTurn pn t =
      if text = "" ∨ (timedeltaOk start && timedeltaOk t.endTime) = true then
        .ok (if text = "" then cues else cues ++ [⟨start, t.endTime, text⟩])
      else .error .overflowError := by
  unfold runTurn
  rw [ha]

theorem runTurn_ok_inv {pn : Bool} {t : Turn} {cs : List Cue}
    (h : runTurn pn t = .ok cs) :
    ∃ start text cues,
      runAnns pn t.anns (t.startTime, "", []) = .ok (start, text, cues) ∧
        cs = (if text = "" then cues else cues ++ [⟨start, t.endTime, text⟩]) := by
  cases ha : runAnns pn t.anns (t.startTime, "", []) with
  | error e => rw [runTurn_error_eq ha] at h; cases h
  | ok st =>
    obtain ⟨start, text, cues⟩ := st
    rw [runTurn_ok_eq ha] at h
    split at h
    · exact ⟨start, text, cues, rfl, (Except.ok.inj h).symm⟩
    · cases h

theorem runTurn_mk_ok {pn : Bool} {t : Turn} {start : Int} {text : String}
    {cues : List Cue}
    (ha : runAnns pn t.anns (t.startTime, "", []) = .ok (start, text, cues))
    (hC : text = "" ∨ (timedeltaOk start && timedeltaOk t.endTime) = true) :
    runTurn pn t = .ok (if text = "" then cues else cues ++ [⟨start, t.endTime, text⟩]) := by
  rw [runTurn_ok_eq ha, if_pos hC]

theorem turnTimesOk_parts {t : Turn} (h : turnTimesOk t = true) :
    timedeltaOk t.startTime = true ∧ timedeltaOk t.endTime = true ∧
      t.anns.all annTimesOk = true := by
  unfold turnTimesOk at h
  rw [Bool.and_eq_true, Bool.and_eq_true] at h
  exact ⟨h.1.1, h.1.2, h.2⟩

theorem runAnns_start_ok (pn : Bool) :
    ∀ {anns : List Ann} {st st' : Int × String × List Cue},
      timedeltaOk st.1 = true → anns.all annTimesOk = true →
      runAnns pn anns st = .ok st' → timedeltaOk st'.1 = true := by
  intro anns
  induction anns with
  | nil => intro st st' h0 _ h; cases h; exact h0
  | cons a rest ih =>
    intro st st' h0 hall h
    rw [List.all_cons, Bool.and_eq_true] at hall
    simp only [runAnns] at h
    cases hts : turnStep pn st a with
    | error e => rw [hts] at h; cases h
    | ok st1 =>
      rw [hts] at h
      refine ih ?_ hall.2 h
      obtain ⟨start, text, cues⟩ := st
      rcases a with ⟨time, tail⟩ | ⟨desc, tail⟩
      · obtain ⟨s, -, hval⟩ := turnStep_sync_ok hts
        rw [hval]
        exact hall.1
      · rcases tail with _ | s
        · rcases pn with _ | _
          · simp [turnStep] at hts
          · rcases hnm : noiseMap desc with _ | m <;> simp [turnStep, hnm] at hts
        · rcases pn with _ | _
          · have hval : st1 = (start, text ++ pyStrip s, cues) := by
              simp only [turnStep] at hts
              exact (Except.ok.inj hts).symm
            rw [hval]
            exact h0
          · rcases hnm : noiseMap desc with _ | m
            · simp [turnStep, hnm] at hts
            · have hval : st1 = (start, (text ++ m) ++ pyStrip s, cues) := by
                simp only [turnStep, hnm, if_true, Option.map_some] at hts
                exact (Except.ok.inj hts).symm
              rw [hval]
              exact h0

/-! C10 — conversion requires every annotation to carry trailing text. -/

theorem runAnns_ok_tails (pn : Bool) :
    ∀ (anns : List Ann) (st st' : Int × String × List Cue),
      runAnns pn anns st = .ok st' → annsTailsSome anns = true := by
  intro anns
  induction anns with
  | nil => intro st st' h; rfl
  | cons a rest ih =>
    intro st st' h
    simp only [runAnns] at h
    cases hts : turnStep pn st a with
    | error e => rw [hts] at h; cases h
    | ok st1 =>
      rw [hts] at h
      have hrest := ih st1 st' h
      have hta : a.tailText.isSome = true := by
        obtain ⟨start, text, cues⟩ := st
        rcases a with ⟨time, tail⟩ | ⟨desc, tail⟩ <;> rcases tail with _ | s
        · obtain ⟨s2, hs2, -⟩ := turnStep_sync_ok hts
          cases hs2
        · rfl
        · rcases pn with _ | _
          · simp [turnStep] at hts
          · rcases hnm : noiseMap desc with _ | m <;> simp [turnStep, hnm] at hts
        · rfl
      simp only [annsTailsSome, List.all_cons, Bool.and_eq_true] at hrest ⊢
      exact ⟨hta, hrest⟩

theorem runTurn_ok_tails {pn : Bool} {t : Turn} {cs : List Cue}
    (h : runTurn pn t = .ok cs) : annsTailsSome t.anns = true := by
  obtain ⟨start, text, cues, ha, -⟩ := runTurn_ok_inv h
  exact runAnns_ok_tails pn t.anns _ _ ha

theorem turnLines_ok_tails {sp pn : Bool} {tbl : List (String × String)} {t : Turn}
    {ls : List String} (h : turnLines sp pn tbl t = .ok ls) :
    annsTailsSome t.anns = true := by
  unfold turnLines at h
  cases hr : runTurn pn t with
  | error e => rw [hr] at h; cases h
  | ok cs => exact runTurn_ok_tails hr

theorem runTurns_ok_tails {sp pn : Bool} {tbl : List (String × String)} :
    ∀ {ts : List Turn} {ls : List String}, runTurns sp pn tbl ts = .ok ls →
      ∀ t ∈ ts, annsTailsSome t.anns = true := by
  intro ts
  induction ts with
  | nil => intro ls h t ht; cases ht
  | cons t rest ih =>
    intro ls h u hu
    simp only [runTurns] at h
    cases h1 : turnLines sp pn tbl t with
    | error e => rw [h1] at h; cases h
    | ok l1 =>
      rw [h1] at h
      cases h2 : runTurns sp pn tbl rest with
      | error e => rw [h2] at h; cases h
      | ok l2 =>
        rcases List.mem_cons.mp hu with rfl | hu
        · exact turnLines_ok_tails h1
        · exact ih h2 u hu

theorem runSections_ok_tails {sp pn : Bool} {tbl : List (String × String)} :
    ∀ {secs : List (List Turn)} {ls : List String}, runSections sp pn tbl secs = .ok ls →
      ∀ t ∈ secs.flatten, annsTailsSome t.anns = true := by
  intro secs
  induction secs with
  | nil => intro ls h t ht; cases List.not_mem_nil t (by simp at ht)
  | cons sec rest ih =>
    intro ls h u hu
    simp only [runSections] at h
    cases h1 : runTurns sp pn tbl sec with
    | error e => rw [h1] at h; cases h
    | ok l1 =>
      rw [h1] at h
      cases h2 : runSections sp pn tbl rest with
      | error e => rw [h2] at h; cases h
      | ok l2 =>
        rw [List.flatten_cons, List.mem_append] at hu
        rcases hu with hu | hu
        · exact runTurns_ok_tails h1 u hu
        · exact ih h2 u hu

theorem convert_lines_ok_tails {doc : TrsDoc} {lang : String} {sp pn : Bool}
    {out : List String} (h : convert_lines doc lang sp pn = .ok out) :
    docTailsSome doc = true := by
  unfold convert_lines at h
  cases hs : runSections sp pn doc.speakers doc.sections with
  | error e => rw [hs] at h; cases h
  | ok body =>
    have hall := runSections_ok_tails hs
    unfold docTailsSome turnsOf
    rw [List.all_eq_true]
    exact hall

theorem runAnns_false_error :
    ∀ {anns : List Ann} {st : Int × String × List Cue} {e : ConvError},
      timedeltaOk st.1 = true → anns.all annTimesOk = true →
      runAnns false anns st = .error e → e = .attributeError := by
  intro anns
  induction anns with
  | nil => intro st e _ _ h; cases h
  | cons a rest ih =>
    intro st e hstart hall h
    rw [List.all_cons, Bool.and_eq_true] at hall
    simp only [runAnns] at h
    cases hts : turnStep false st a with
    | error e1 =>
      rw [hts] at h
      cases h
      obtain ⟨start, text, cues⟩ := st
      rcases a with ⟨time, tail⟩ | ⟨desc, tail⟩
      · exact turnStep_sync_error_ok_times hstart hall.1 hts
      · rcases tail with _ | s <;> simp [turnStep] at hts
        exact hts.symm
    | ok st1 =>
      rw [hts] at h
      refine ih ?_ hall.2 h
      obtain ⟨start, text, cues⟩ := st
      rcases a with ⟨time, tail⟩ | ⟨desc, tail⟩
      · obtain ⟨s, -, hval⟩ := turnStep_sync_ok hts
        rw [hval]
        exact hall.1
      · rcases tail with _ | s
        · simp [turnStep] at hts
        · have hval : st1 = (start, text ++ pyStrip s, cues) := by
            simp only [turnStep] at hts
            exact (Except.ok.inj hts).symm
          rw [hval]
          exact hstart

theorem runTurn_false_error {t : Turn} {e : ConvError} (htm : turnTimesOk t = true)
    (h : runTurn false t = .error e) : e = .attributeError := by
  obtain ⟨hst, hend, hall⟩ := turnTimesOk_parts htm
  cases ha : runAnns false t.anns (t.startTime, "", []) with
  | error e1 =>
    rw [runTurn_error_eq ha] at h
    cases h
    exact runAnns_false_error hst hall ha
  | ok st =>
    obtain ⟨start, text, cues⟩ := st
    have hstart : timedeltaOk start = true := runAnns_start_ok false hst hall ha
    rw [runTurn_ok_eq ha] at h
    split at h
    · cases h
    · rename_i hC
      exact absurd (Or.inr (by rw [hstart, hend]; rfl)) hC

theorem turnLines_false_error {sp : Bool} {tbl : List (String × String)} {t : Turn}
    {e : ConvError} (htm : turnTimesOk t = true)
    (h : turnLines sp false tbl t = .error e) : e = .attributeError := by
  unfold turnLines at h
  cases hr : runTurn false t with
  | error e1 =>
    rw [hr] at h
    cases h
    exact runTurn_false_error htm hr
  | ok cs => rw [hr] at h; cases h

theorem runTurns_false_error {sp : Bool} {tbl : List (String × String)} :
    ∀ {ts : List Turn} {e : ConvError}, (∀ t ∈ ts, turnTimesOk t = true) →
      runTurns sp false tbl ts = .error e → e = .attributeError := by
  intro ts
  induction ts with
  | nil => intro e _ h; cases h
  | cons t rest ih =>
    intro e htm h
    simp only [runTurns] at h
    cases h1 : turnLines sp false tbl t with
    | error e1 =>
      rw [h1] at h
      cases h
      exact turnLines_false_error (htm t (List.mem_cons_self t rest)) h1
    | ok l1 =>
      rw [h1] at h
      cases h2 : runTurns sp false tbl rest with
      | error e2 =>
        rw [h2] at h
        cases h
        exact ih (fun u hu => htm u (List.mem_cons_of_mem t hu)) h2
      | ok l2 => rw [h2] at h; cases h

theorem runSections_false_error {sp : Bool} {tbl : List (String × String)} :
    ∀ {secs : List (List Turn)} {e : ConvError},
      (∀ t ∈ secs.flatten, turnTimesOk t = true) →
      runSections sp false tbl secs = .error e → e = .attributeError := by
  intro secs
  induction secs with
  | nil => intro e _ h; cases h
  | cons sec rest ih =>
    intro e htm h
    rw [List.flatten_cons] at htm
    simp only [runSections] at h
    cases h1 : runTurns sp false tbl sec with
    | error e1 =>
      rw [h1] at h
      cases h
      exact runTurns_false_error
        (fun u hu => htm u (List.mem_append.mpr (Or.inl hu))) h1
    | ok l1 =>
      rw [h1] at h
      cases h2 : runSections sp false tbl rest with
      | error e2 =>
        rw [h2] at h
        cases h
        exact ih (fun u hu => htm u (List.mem_append.mpr (Or.inr hu))) h2
      | ok l2 => rw [h2] at h; cases h

theorem convert_lines_false_error {doc : TrsDoc} {lang : String} {sp : Bool} {e : ConvError}
    (htm : docTimesOk doc = true)
    (h : convert_lines doc lang sp false = .error e) : e = .attributeError := by
  have htm' : ∀ t ∈ doc.sections.flatten, turnTimesOk t = true := by
    unfold docTimesOk turnsOf at htm
    rw [List.all_eq_true] at htm
    exact htm
  unfold convert_lines at h
  cases hs : runSections sp false doc.speakers doc.sections with
  | error e1 =>
    rw [hs] at h
    cases h
    exact runSections_false_error htm' hs
  | ok body => rw [hs] at h; cases h

/-- Counterexample to C10: the document whose single annotation is an
`Event` with unknown code `"FOO"` and absent trailing text fails — but,
with noise preservation enabled, with the table-lookup error (`KeyError`),
not the claimed attribute error: `noise[annotation.attrib["desc"]]` runs
before `annotation.tail.strip()`. -/
theorem C10_preempted_ctrex :
    docTailsSome docC10x = false ∧
      convert_lines docC10x "" false true = .error (.unknownEventCode "FOO") ∧
      convert_lines docC10x "" false true ≠ .error .attributeError := by
  refine ⟨rfl, rfl, ?_⟩
  intro h
  rw [show convert_lines docC10x "" false true = .error (.unknownEventCode "FOO") from rfl] at h
  simp at h

/-- C10 amended: a successful conversion requires every `Sync` and
`Event` to carry trailing text — a document with an absent tail never
converts, and with noise preservation disabled the failure is precisely
the attribute error from `annotation.tail.strip()` provided every time
code lies in `timedelta`'s range (otherwise an `OverflowError` from
`generate_timestamp` can fire before the tail is touched); with noise
preservation enabled an unknown-event-code failure can also occur
first. -/
theorem C10_missing_tail (doc : TrsDoc) (lang : String) (sp : Bool) :
    (∀ (pn : Bool) (out : List String),
        convert_lines doc lang sp pn = .ok out → docTailsSome doc = true) ∧
      (docTimesOk doc = true → docTailsSome doc = false →
        convert_lines doc lang sp false = .error .attributeError) := by
  constructor
  · intro pn out h
    exact convert_lines_ok_tails h
  · intro htm hmiss
    cases hres : convert_lines doc lang sp false with
    | ok out => rw [convert_lines_ok_tails hres] at hmiss; cases hmiss
    | error e => rw [convert_lines_false_error htm hres]

/-- Witness for C10's amended theorem: the empty document converts (so
its tails are vacuously present), and `docC10w`, whose first `Sync` has
no trailing text but whose time codes are in range, fails with the
attribute error. -/
theorem C10_missing_tail_witness :
    docTailsSome ⟨[], []⟩ = true ∧ docTimesOk docC10w = true ∧
      docTailsSome docC10w = false ∧
      convert_lines docC10w "" false false = .error .attributeError :=
  ⟨(C10_missing_tail ⟨[], []⟩ "" false).1 false ["WEBVTT", ""] rfl,
    by decide, by decide,
    (C10_missing_tail docC10w "" false).2 (by decide) (by decide)⟩

/-! C7 — unknown event codes under the noise flag. -/

theorem runAnns_false_ok :
    ∀ (anns : List Ann) (st : Int × String × List Cue), annsTailsSome anns = true →
      timedeltaOk st.1 = true → anns.all annTimesOk = true →
      ∃ st', runAnns false anns st = .ok st' := by
  intro anns
  induction anns with
  | nil => intro st h _ _; exact ⟨st, rfl⟩
  | cons a rest ih =>
    intro st h hstart hall
    rw [List.all_cons, Bool.and_eq_true] at hall
    simp only [annsTailsSome, List.all_cons, Bool.and_eq_true] at h
    obtain ⟨h1, h2⟩ := h
    obtain ⟨start, text, cues⟩ := st
    rcases a with ⟨time, tail⟩ | ⟨desc, tail⟩ <;> rcases tail with _ | s
    · cases h1
    · have hstart' : timedeltaOk start = true := hstart
      have htime : timedeltaOk time = true := hall.1
      have hC : text = "" ∨ (timedeltaOk start && timedeltaOk time) = true := by
        right
        rw [hstart', htime]
        rfl
      obtain ⟨st', hst'⟩ := ih (time,
        (if text = "" then text else "") ++ pyStrip s,
        if text = "" then cues else cues ++ [⟨start, time, text⟩]) h2 htime hall.2
      refine ⟨st', ?_⟩
      simp only [runAnns]
      rw [turnStep_sync_some_eq s hC]
      exact hst'
    · cases h1
    · obtain ⟨st', hst'⟩ := ih (start, text ++ pyStrip s, cues) h2 hstart hall.2
      exact ⟨st', by simp only [runAnns, turnStep]; exact hst'⟩

theorem annsFirstUnknown_cons_sync (time : Int) (tail : Option String) (rest : List Ann) :
    annsFirstUnknown (.sync time tail :: rest) = annsFirstUnknown rest := rfl

theorem runAnns_true_ok :
    ∀ (anns : List Ann) (st : Int × String × List Cue), annsTailsSome anns = true →
      timedeltaOk st.1 = true → anns.all annTimesOk = true →
      annsFirstUnknown anns = none → ∃ st', runAnns true anns st = .ok st' := by
  intro anns
  induction anns with
  | nil => intro st h _ _ hu; exact ⟨st, rfl⟩
  | cons a rest ih =>
    intro st h hstart hall hu
    rw [List.all_cons, Bool.and_eq_true] at hall
    simp only [annsTailsSome, List.all_cons, Bool.and_eq_true] at h
    obtain ⟨h1, h2⟩ := h
    obtain ⟨start, text, cues⟩ := st
    rcases a with ⟨time, tail⟩ | ⟨desc, tail⟩ <;> rcases tail with _ | s
    · cases h1
    · rw [annsFirstUnknown_cons_sync] at hu
      have hstart' : timedeltaOk start = true := hstart
      have htime : timedeltaOk time = true := hall.1
      have hC : text = "" ∨ (timedeltaOk start && timedeltaOk time) = true := by
        right
        rw [hstart', htime]
        rfl
      obtain ⟨st', hst'⟩ := ih (time,
        (if text = "" then text else "") ++ pyStrip s,
        if text = "" then cues else cues ++ [⟨start, time, text⟩]) h2 htime hall.2 hu
      refine ⟨st', ?_⟩
      simp only [runAnns]
      rw [turnStep_sync_some_eq s hC]
      exact hst'
    · cases h1
    · simp only [annsFirstUnknown] at hu
      cases hnm : noiseMap desc with
      | none => rw [hnm] at hu; simp at hu
      | some m =>
        rw [hnm] at hu
        simp only [Option.isSome_some, if_pos] at hu
        obtain ⟨st', hst'⟩ := ih (start, (text ++ m) ++ pyStrip s, cues) h2 hstart hall.2 hu
        refine ⟨st', ?_⟩
        simp only [runAnns, turnStep, hnm, if_true, Option.map_some]
        exact hst'

theorem runAnns_true_unknown :
    ∀ (anns : List Ann) (st : Int × String × List Cue) (d : String),
      annsTailsSome anns = true →
      timedeltaOk st.1 = true → anns.all annTimesOk = true →
      annsFirstUnknown anns = some d →
      runAnns true anns st = .error (.unknownEventCode d) := by
  intro anns
  induction anns with
  | nil => intro st d h _ _ hu; cases hu
  | cons a rest ih =>
    intro st d h hstart hall hu
    rw [List.all_cons, Bool.and_eq_true] at hall
    simp only [annsTailsSome, List.all_cons, Bool.and_eq_true] at h
    obtain ⟨h1, h2⟩ := h
    obtain ⟨start, text, cues⟩ := st
    rcases a with ⟨time, tail⟩ | ⟨desc, tail⟩ <;> rcases tail with _ | s
    · cases h1
    · rw [annsFirstUnknown_cons_sync] at hu
      have hstart' : timedeltaOk start = true := hstart
      have htime : timedeltaOk time = true := hall.1
      have hC : text = "" ∨ (timedeltaOk start && timedeltaOk time) = true := by
        right
        rw [hstart', htime]
        rfl
      simp only [runAnns]
      rw [turnStep_sync_some_eq s hC]
      exact ih _ d h2 htime hall.2 hu
    · cases h1
    · simp only [annsFirstUnknown] at hu
      cases hnm : noiseMap desc with
      | none =>
        rw [hnm] at hu
        simp only [Option.isSome_none, Bool.false_eq_true, if_neg, if_false] at hu
        cases hu
        simp [runAnns, turnStep, hnm]
      | some m =>
        rw [hnm] at hu
        simp only [Option.isSome_some, if_pos] at hu
        simp only [runAnns, turnStep, hnm, if_true, Option.map_some]
        exact ih _ d h2 hstart hall.2 hu

theorem annsFirstUnknown_some_unknown :
    ∀ {anns : List Ann} {d : String}, annsFirstUnknown anns = some d →
      (noiseMap d).isSome = false := by
  intro anns
  induction anns with
  | nil => intro d h; cases h
  | cons a rest ih =>
    intro d h
    rcases a with ⟨time, tail⟩ | ⟨desc, tail⟩
    · exact ih h
    · simp only [annsFirstUnknown] at h
      cases hnm : noiseMap desc with
      | none =>
        rw [hnm] at h
        simp only [Option.isSome_none, Bool.false_eq_true, if_neg, if_false] at h
        cases h
        rw [hnm]
        rfl
      | some m =>
        rw [hnm] at h
        simp only [Option.isSome_some, if_pos] at h
        exact ih h

theorem runTurn_false_ok (t : Turn) (h : annsTailsSome t.anns = true)
    (htm : turnTimesOk t = true) : ∃ cs, runTurn false t = .ok cs := by
  obtain ⟨hst, hend, hall⟩ := turnTimesOk_parts htm
  obtain ⟨st', hst'⟩ := runAnns_false_ok t.anns (t.startTime, "", []) h hst hall
  obtain ⟨start, text, cues⟩ := st'
  have hstart : timedeltaOk start = true := runAnns_start_ok false hst hall hst'
  refine ⟨_, runTurn_mk_ok hst' (Or.inr ?_)⟩
  simp [hstart, hend]

theorem runTurn_true_ok (t : Turn) (h : annsTailsSome t.anns = true)
    (htm : turnTimesOk t = true)
    (hu : annsFirstUnknown t.anns = none) : ∃ cs, runTurn true t = .ok cs := by
  obtain ⟨hst, hend, hall⟩ := turnTimesOk_parts htm
  obtain ⟨st', hst'⟩ := runAnns_true_ok t.anns (t.startTime, "", []) h hst hall hu
  obtain ⟨start, text, cues⟩ := st'
  have hstart : timedeltaOk start = true := runAnns_start_ok true hst hall hst'
  refine ⟨_, runTurn_mk_ok hst' (Or.inr ?_)⟩
  simp [hstart, hend]

theorem runTurn_true_unknown (t : Turn) (d : String) (h : annsTailsSome t.anns = true)
    (htm : turnTimesOk t = true)
    (hu : annsFirstUnknown t.anns = some d) :
    runTurn true t = .error (.unknownEventCode d) := by
  obtain ⟨hst, -, hall⟩ := turnTimesOk_parts htm
  exact runTurn_error_eq (runAnns_true_unknown t.anns (t.startTime, "", []) d h hst hall hu)

theorem turnLines_false_ok (sp : Bool) (tbl : List (String × String)) (t : Turn)
    (h : annsTailsSome t.anns = true) (htm : turnTimesOk t = true) :
    ∃ ls, turnLines sp false tbl t = .ok ls := by
  obtain ⟨cs, hcs⟩ := runTurn_false_ok t h htm
  refine ⟨(cs.map (cueLines sp (speakerVTag tbl t))).flatten, ?_⟩
  unfold turnLines
  rw [hcs]

theorem turnLines_true_ok (sp : Bool) (tbl : List (String × String)) (t : Turn)
    (h : annsTailsSome t.anns = true) (htm : turnTimesOk t = true)
    (hu : annsFirstUnknown t.anns = none) :
    ∃ ls, turnLines sp true tbl t = .ok ls := by
  obtain ⟨cs, hcs⟩ := runTurn_true_ok t h htm hu
  refine ⟨(cs.map (cueLines sp (speakerVTag tbl t))).flatten, ?_⟩
  unfold turnLines
  rw [hcs]

theorem turnLines_true_unknown (sp : Bool) (tbl : List (String × String)) (t : Turn)
    (d : String) (h : annsTailsSome t.anns = true) (htm : turnTimesOk t = true)
    (hu : annsFirstUnknown t.anns = some d) :
    turnLines sp true tbl t = .error (.unknownEventCode d) := by
  unfold turnLines
  rw [runTurn_true_unknown t d h htm hu]

theorem runTurns_false_ok (sp : Bool) (tbl : List (String × String)) :
    ∀ (ts : List Turn), (∀ t ∈ ts, annsTailsSome t.anns = true) →
      (∀ t ∈ ts, turnTimesOk t = true) →
      ∃ ls, runTurns sp false tbl ts = .ok ls := by
  intro ts
  induction ts with
  | nil => intro h htm; exact ⟨[], rfl⟩
  | cons t rest ih =>
    intro h htm
    obtain ⟨l1, hl1⟩ := turnLines_false_ok sp tbl t (h t (List.mem_cons_self t rest))
      (htm t (List.mem_cons_self t rest))
    obtain ⟨l2, hl2⟩ := ih (fun u hu => h u (List.mem_cons_of_mem t hu))
      (fun u hu => htm u (List.mem_cons_of_mem t hu))
    refine ⟨l1 ++ l2, ?_⟩
    simp only [runTurns]
    rw [hl1, hl2]

theorem runTurns_true_ok (sp : Bool) (tbl : List (String × String)) :
    ∀ (ts : List Turn), (∀ t ∈ ts, annsTailsSome t.anns = true) →
      (∀ t ∈ ts, turnTimesOk t = true) →
      turnsFirstUnknown ts = none → ∃ ls, runTurns sp true tbl ts = .ok ls := by
  intro ts
  induction ts with
  | nil => intro h htm hu; exact ⟨[], rfl⟩
  | cons t rest ih =>
    intro h htm hu
    simp only [turnsFirstUnknown] at hu
    cases ha : annsFirstUnknown t.anns with
    | some d => rw [ha] at hu; cases hu
    | none =>
      rw [ha] at hu
      obtain ⟨l1, hl1⟩ := turnLines_true_ok sp tbl t (h t (List.mem_cons_self t rest))
        (htm t (List.mem_cons_self t rest)) ha
      obtain ⟨l2, hl2⟩ := ih (fun u huu => h u (List.mem_cons_of_mem t huu))
        (fun u huu => htm u (List.mem_cons_of_mem t huu)) hu
      refine ⟨l1 ++ l2, ?_⟩
      simp only [runTurns]
      rw [hl1, hl2]

theorem runTurns_true_unknown (sp : Bool) (tbl : List (String × String)) :
    ∀ (ts : List Turn) (d : String), (∀ t ∈ ts, annsTailsSome t.anns = true) →
      (∀ t ∈ ts, turnTimesOk t = true) →
      turnsFirstUnknown ts = some d →
      runTurns sp true tbl ts = .error (.unknownEventCode d) := by
  intro ts
  induction ts with
  | nil => intro d h htm hu; cases hu
  | cons t rest ih =>
    intro d h htm hu
    simp only [turnsFirstUnknown] at hu
    cases ha : annsFirstUnknown t.anns with
    | some d1 =>
      rw [ha] at hu
      cases hu
      simp only [runTurns]
      rw [turnLines_true_unknown sp tbl t d (h t (List.mem_cons_self t rest))
        (htm t (List.mem_cons_self t rest)) ha]
    | none =>
      rw [ha] at hu
      obtain ⟨l1, hl1⟩ := turnLines_true_ok sp tbl t (h t (List.mem_cons_self t rest))
        (htm t (List.mem_cons_self t rest)) ha
      simp only [runTurns]
      rw [hl1, ih d (fun u huu => h u (List.mem_cons_of_mem t huu))
        (fun u huu => htm u (List.mem_cons_of_mem t huu)) hu]

theorem turnsFirstUnknown_append (xs ys : List Turn) :
    turnsFirstUnknown (xs ++ ys) =
      match turnsFirstUnknown xs with
      | some d => some d
      | none => turnsFirstUnknown ys := by
  induction xs with
  | nil => simp [turnsFirstUnknown]
  | cons t rest ih =>
    simp only [List.cons_append, turnsFirstUnknown]
    cases annsFirstUnknown t.anns with
    | some d => rfl
    | none => exact ih

theorem runSections_true_unknown (sp : Bool) (tbl : List (String × String)) :
    ∀ (secs : List (List Turn)) (d : String),
      (∀ t ∈ secs.flatten, annsTailsSome t.anns = true) →
      (∀ t ∈ secs.flatten, turnTimesOk t = true) →
      turnsFirstUnknown secs.flatten = some d →
      runSections sp true tbl secs = .error (.unknownEventCode d) := by
  intro secs
  induction secs with
  | nil => intro d h htm hu; cases hu
  | cons sec rest ih =>
    intro d h htm hu
    rw [List.flatten_cons] at h htm hu
    rw [turnsFirstUnknown_append] at hu
    have hsec : ∀ t ∈ sec, annsTailsSome t.anns = true := fun u huu =>
      h u (List.mem_append.mpr (Or.inl huu))
    have hrest : ∀ t ∈ rest.flatten, annsTailsSome t.anns = true := fun u huu =>
      h u (List.mem_append.mpr (Or.inr huu))
    have hmsec : ∀ t ∈ sec, turnTimesOk t = true := fun u huu =>
      htm u (List.mem_append.mpr (Or.inl huu))
    have hmrest : ∀ t ∈ rest.flatten, turnTimesOk t = true := fun u huu =>
      htm u (List.mem_append.mpr (Or.inr huu))
    cases hs : turnsFirstUnknown sec with
    | some d1 =>
      rw [hs] at hu
      cases hu
      simp only [runSections]
      rw [runTurns_true_unknown sp tbl sec d hsec hmsec hs]
    | none =>
      rw [hs] at hu
      obtain ⟨l1, hl1⟩ := runTurns_true_ok sp tbl sec hsec hmsec hs
      simp only [runSections]
      rw [hl1, ih d hrest hmrest hu]

theorem runSections_false_ok (sp : Bool) (tbl : List (String × String)) :
    ∀ (secs : List (List Turn)), (∀ t ∈ secs.flatten, annsTailsSome t.anns = true) →
      (∀ t ∈ secs.flatten, turnTimesOk t = true) →
      ∃ ls, runSections sp false tbl secs = .ok ls := by
  intro secs
  induction secs with
  | nil => intro h htm; exact ⟨[], rfl⟩
  | cons sec rest ih =>
    intro h htm
    rw [List.flatten_cons] at h htm
    obtain ⟨l1, hl1⟩ := runTurns_false_ok sp tbl sec
      (fun u huu => h u (List.mem_append.mpr (Or.inl huu)))
      (fun u huu => htm u (List.mem_append.mpr (Or.inl huu)))
    obtain ⟨l2, hl2⟩ := ih (fun u huu => h u (List.mem_append.mpr (Or.inr huu)))
      (fun u huu => htm u (List.mem_append.mpr (Or.inr huu)))
    refine ⟨l1 ++ l2, ?_⟩
    simp only [runSections]
    rw [hl1, hl2]

/-- C7 amended: assuming every annotation carries trailing text (so no
attribute error hides the behaviour) and every time code lies within
`timedelta`'s range (so no `OverflowError` from a timestamp rendered
mid-walk preempts the lookup — see `C7_overflow_ctrex`), with noise
preservation enabled the conversion fails with the table-lookup error at
the first `Event` whose descriptive code the nine-entry noise table does
not know; with noise preservation disabled the conversion succeeds no
matter what the codes are — an unrecognized code causes no failure. -/
theorem C7_unknown_event (doc : TrsDoc) (lang : String) (sp : Bool)
    (ht : docTailsSome doc = true) (htm : docTimesOk doc = true) :
    (∀ d, docFirstUnknown doc = some d →
        (noiseMap d).isSome = false ∧
          convert_lines doc lang sp true = .error (.unknownEventCode d)) ∧
      (∃ out, convert_lines doc lang sp false = .ok out) := by
  have htails : ∀ t ∈ doc.sections.flatten, annsTailsSome t.anns = true := by
    unfold docTailsSome turnsOf at ht
    rw [List.all_eq_true] at ht
    exact ht
  have htimes : ∀ t ∈ doc.sections.flatten, turnTimesOk t = true := by
    unfold docTimesOk turnsOf at htm
    rw [List.all_eq_true] at htm
    exact htm
  constructor
  · intro d hd
    have hAU : turnsFirstUnknown doc.sections.flatten = some d := hd
    constructor
    · clear ht hd
      revert hAU
      generalize doc.sections.flatten = ts
      intro hAU
      induction ts with
      | nil => cases hAU
      | cons t rest ih =>
        simp only [turnsFirstUnknown] at hAU
        cases ha : annsFirstUnknown t.anns with
        | some d1 =>
          rw [ha] at hAU
          cases hAU
          exact annsFirstUnknown_some_unknown ha
        | none => rw [ha] at hAU; exact ih hAU
    · unfold convert_lines
      rw [runSections_true_unknown sp doc.speakers doc.sections d htails htimes hAU]
  · obtain ⟨body, hbody⟩ := runSections_false_ok sp doc.speakers doc.sections htails htimes
    refine ⟨(["WEBVTT"] ++ (if lang = "" then [] else ["Language: " ++ lang]) ++ [""])
      ++ body, ?_⟩
    unfold convert_lines
    rw [hbody]

/-- Counterexample to C7: in `docC7x` every annotation carries trailing
text and the only event code, `"FOO"`, is unknown — yet with noise
preservation enabled the conversion does not fail with the table-lookup
error, and with it disabled it does not succeed: the first `Sync` time
overflows `timedelta`'s range, so `generate_timestamp` raises
`OverflowError` at the second `Sync`, before the `Event` is reached. -/
theorem C7_overflow_ctrex :
    docTailsSome docC7x = true ∧ docFirstUnknown docC7x = some "FOO" ∧
      convert_lines docC7x "" false true = .error .overflowError ∧
      convert_lines docC7x "" false false = .error .overflowError :=
  ⟨by decide, by decide, rfl, rfl⟩

/-- Witness for C7 on `docC7w`, whose only event code `"FOO"` is unknown,
whose annotations all carry trailing text and whose time codes are in
range. -/
theorem C7_unknown_event_witness :
    docTailsSome docC7w = true ∧ docTimesOk docC7w = true ∧
      docFirstUnknown docC7w = some "FOO" ∧
      (noiseMap "FOO").isSome = false ∧
      convert_lines docC7w "" false true = .error (.unknownEventCode "FOO") ∧
      (∃ out, convert_lines docC7w "" false false = .ok out) :=
  ⟨by decide, by decide, by decide,
    ((C7_unknown_event docC7w "" false (by decide) (by decide)).1 "FOO" (by decide)).1,
    ((C7_unknown_event docC7w "" false (by decide) (by decide)).1 "FOO" (by decide)).2,
    (C7_unknown_event docC7w "" false (by decide) (by decide)).2⟩

/-! C6 — no emitted cue has empty text after stripping. -/

theorem mem_dropWhile_of_not {α : Type} {p : α → Bool} {l : List α} {c : α}
    (hc : c ∈ l) (hp : p c = false) : c ∈ l.dropWhile p := by
  have hsplit := List.takeWhile_append_dropWhile p l
  rw [← hsplit] at hc
  rcases List.mem_append.mp hc with h | h
  · have := List.mem_takeWhile_imp h
    rw [hp] at this
    cases this
  · exact h

theorem pyStripL_ne_nil {l : List Char} {c : Char} (hc : c ∈ l)
    (hws : c.isWhitespace = false) : pyStripL l ≠ [] := by
  unfold pyStripL
  intro hnil
  rw [List.reverse_eq_nil_iff, List.dropWhile_eq_nil_iff] at hnil
  have h1 : c ∈ l.dropWhile Char.isWhitespace := mem_dropWhile_of_not hc hws
  have h2 : c ∈ (l.dropWhile Char.isWhitespace).reverse := List.mem_reverse.mpr h1
  have := hnil c h2
  rw [hws] at this
  cases this

theorem pyStripL_has_nonws {l : List Char} (h : pyStripL l ≠ []) :
    ∃ c ∈ pyStripL l, c.isWhitespace = false := by
  have hm : (l.dropWhile Char.isWhitespace).reverse.dropWhile Char.isWhitespace ≠ [] := by
    intro hc
    apply h
    unfold pyStripL
    rw [hc]
    rfl
  refine ⟨((l.dropWhile Char.isWhitespace).reverse.dropWhile Char.isWhitespace).head hm,
    ?_, ?_⟩
  · unfold pyStripL
    rw [List.mem_reverse]
    exact List.head_mem hm
  · exact List.head_dropWhile_not _ _ hm

theorem pyStrip_eq_empty_iff (s : String) : pyStrip s = "" ↔ pyStripL s.data = [] := by
  constructor
  · intro h
    exact congrArg String.data h
  · intro h
    unfold pyStrip
    rw [h]

theorem noiseMap_has_nonws {d m : String} (h : noiseMap d = some m) :
    ∃ c ∈ m.data, c.isWhitespace = false := by
  unfold noiseMap at h
  split_ifs at h <;> (rw [Option.some.injEq] at h; rw [← h]; decide)

theorem pyStrip_textok (s : String) :
    pyStrip s = "" ∨ ∃ c ∈ (pyStrip s).data, c.isWhitespace = false := by
  by_cases h : pyStripL s.data = []
  · exact Or.inl ((pyStrip_eq_empty_iff s).mpr h)
  · exact Or.inr (pyStripL_has_nonws h)

theorem runAnns_cues_nonempty (pn : Bool) :
    ∀ (anns : List Ann) (start : Int) (text : String) (cues : List Cue)
      (st' : Int × String × List Cue),
      (text = "" ∨ ∃ c ∈ text.data, c.isWhitespace = false) →
      (∀ c ∈ cues, pyStrip c.text ≠ "") →
      runAnns pn anns (start, text, cues) = .ok st' →
      (st'.2.1 = "" ∨ ∃ c ∈ st'.2.1.data, c.isWhitespace = false) ∧
        ∀ c ∈ st'.2.2, pyStrip c.text ≠ "" := by
  intro anns
  induction anns with
  | nil =>
    intro start text cues st' htext hcues h
    cases h
    exact ⟨htext, hcues⟩
  | cons a rest ih =>
    intro start text cues st' htext hcues h
    simp only [runAnns] at h
    cases hts : turnStep pn (start, text, cues) a with
    | error e => rw [hts] at h; cases h
    | ok st1 =>
      rw [hts] at h
      rcases a with ⟨time, tail⟩ | ⟨desc, tail⟩ <;> rcases tail with _ | s
      · obtain ⟨s2, hs2, -⟩ := turnStep_sync_ok hts
        cases hs2
      · obtain ⟨s2, hs2, hval⟩ := turnStep_sync_ok hts
        injection hs2 with hs2e
        subst hs2e
        subst hval
        refine ih time _ _ st' ?_ ?_ h
        · have hz : (if text = "" then text else "") = "" := by
            split
            · assumption
            · rfl
          rw [hz]
          have he : ("" : String) ++ pyStrip s = pyStrip s := by
            apply String.ext
            simp
          rw [he]
          exact pyStrip_textok s
        · intro c hc
          by_cases hte : text = ""
          · rw [if_pos hte] at hc
            exact hcues c hc
          · rw [if_neg hte] at hc
            rcases List.mem_append.mp hc with hcc | hcc
            · exact hcues c hcc
            · rw [List.mem_singleton] at hcc
              subst hcc
              rcases htext with h0 | ⟨w, hw, hwws⟩
              · exact absurd h0 hte
              · intro hps
                exact pyStripL_ne_nil hw hwws ((pyStrip_eq_empty_iff _).mp hps)
      · rcases pn with _ | _
        · simp [turnStep] at hts
        · rcases hnm : noiseMap desc with _ | m <;> simp [turnStep, hnm] at hts
      · cases pn with
        | false =>
          have hval : st1 = (start, text ++ pyStrip s, cues) := by
            simp only [turnStep] at hts
            exact (Except.ok.inj hts).symm
          subst hval
          refine ih start _ _ st' ?_ hcues h
          rcases htext with h0 | ⟨w, hw, hwws⟩
          · rw [h0]
            have he : ("" : String) ++ pyStrip s = pyStrip s := by
              apply String.ext
              simp
            rw [he]
            exact pyStrip_textok s
          · refine Or.inr ⟨w, ?_, hwws⟩
            rw [String.data_append, List.mem_append]
            exact Or.inl hw
        | true =>
          cases hnm : noiseMap desc with
          | none => simp [turnStep, hnm] at hts
          | some m =>
            have hval : st1 = (start, (text ++ m) ++ pyStrip s, cues) := by
              simp only [turnStep, hnm, if_true, Option.map_some] at hts
              exact (Except.ok.inj hts).symm
            subst hval
            refine ih start _ _ st' ?_ hcues h
            obtain ⟨w, hw, hwws⟩ := noiseMap_has_nonws hnm
            refine Or.inr ⟨w, ?_, hwws⟩
            rw [String.data_append, String.data_append, List.mem_append, List.mem_append]
            exact Or.inl (Or.inr hw)

/-- C6: every cue a turn emits has non-empty text after stripping — the
emission guards on non-empty accumulated text, and every accumulated
fragment is stripped at append time (noise markup contains non-blank
characters), so non-empty accumulated text contains a non-whitespace
character. -/
theorem C6_no_empty_cue (pn : Bool) (t : Turn) (cs : List Cue)
    (h : runTurn pn t = .ok cs) : ∀ c ∈ cs, pyStrip c.text ≠ "" := by
  obtain ⟨start, text, cues, ha, hcs⟩ := runTurn_ok_inv h
  · have hinv := runAnns_cues_nonempty pn t.anns t.startTime "" []
      (start, text, cues) (Or.inl rfl) (by intro c hc; cases hc) ha
    rw [hcs]
    intro c hc
    by_cases hte : text = ""
    · rw [if_pos hte] at hc
      exact hinv.2 c hc
    · rw [if_neg hte] at hc
      rcases List.mem_append.mp hc with hcc | hcc
      · exact hinv.2 c hcc
      · rw [List.mem_singleton] at hcc
        subst hcc
        rcases hinv.1 with h0 | ⟨w, hw, hwws⟩
        · exact absurd h0 hte
        · intro hps
          exact pyStripL_ne_nil hw hwws ((pyStrip_eq_empty_iff _).mp hps)

/-- Witness for C6 on a one-cue turn whose trailing text is `" hi "`. -/
theorem C6_no_empty_cue_witness :
    runTurn false turnC6w = .ok [⟨1000000, 2000000, "hi"⟩] ∧
      pyStrip (Cue.text ⟨1000000, 2000000, "hi"⟩) ≠ "" :=
  ⟨rfl, C6_no_empty_cue false turnC6w _ rfl _ (List.mem_singleton_self _)⟩

/-! C3 — monotonicity of emitted cue ranges. -/

theorem chain_le_snoc_mono {l : List Int} {a b : Int}
    (h : List.Chain' (· ≤ ·) (l ++ [a])) (hab : a ≤ b) :
    List.Chain' (· ≤ ·) (l ++ [b]) := by
  rw [List.chain'_append] at h ⊢
  obtain ⟨h1, _, h3⟩ := h
  refine ⟨h1, List.chain'_singleton b, ?_⟩
  intro x hx y hy
  simp only [List.head?_cons, Option.mem_def, Option.some.injEq] at hy
  subst hy
  exact le_trans (h3 x hx a (by simp)) hab

theorem chain_le_snoc_extend {l : List Int} {a b : Int}
    (h : List.Chain' (· ≤ ·) (l ++ [a])) (hab : a ≤ b) :
    List.Chain' (· ≤ ·) (l ++ [a, b]) := by
  have heq : l ++ [a, b] = (l ++ [a]) ++ [b] := by simp
  rw [heq, List.chain'_append]
  refine ⟨h, List.chain'_singleton b, ?_⟩
  intro x hx y hy
  simp only [List.head?_cons, Option.mem_def, Option.some.injEq] at hy
  subst hy
  rw [List.getLast?_concat, Option.mem_def, Option.some.injEq] at hx
  subst hx
  exact hab

theorem rangesOf_app (a b : List Cue) : rangesOf (a ++ b) = rangesOf a ++ rangesOf b := by
  unfold rangesOf
  rw [List.map_append, List.flatten_append]

theorem rangesOf_snoc (cs : List Cue) (c : Cue) :
    rangesOf (cs ++ [c]) = rangesOf cs ++ [c.start, c.stop] := by
  rw [rangesOf_app]
  rfl

theorem syncTimes_cons_sync (time : Int) (tl : Option String) (rest : List Ann) :
    syncTimes (.sync time tl :: rest) = time :: syncTimes rest := rfl

theorem syncTimes_cons_event (d : String) (tl : Option String) (rest : List Ann) :
    syncTimes (.event d tl :: rest) = syncTimes rest := rfl

theorem runAnns_mono (pn : Bool) :
    ∀ (anns : List Ann) (start : Int) (text : String) (cues : List Cue)
      (lo endT : Int) (st' : Int × String × List Cue),
      List.Chain' (· ≤ ·) (start :: (syncTimes anns ++ [endT])) →
      List.Chain' (· ≤ ·) ((lo :: rangesOf cues) ++ [start]) →
      runAnns pn anns (start, text, cues) = .ok st' →
      List.Chain' (· ≤ ·) ((lo :: rangesOf st'.2.2) ++ [st'.1]) ∧ st'.1 ≤ endT := by
  intro anns
  induction anns with
  | nil =>
    intro start text cues lo endT st' hsync hinv h
    cases h
    refine ⟨hinv, ?_⟩
    simp only [syncTimes, List.filterMap_nil, List.nil_append] at hsync
    exact List.chain'_pair.mp hsync
  | cons a rest ih =>
    intro start text cues lo endT st' hsync hinv h
    simp only [runAnns] at h
    cases hts : turnStep pn (start, text, cues) a with
    | error e => rw [hts] at h; cases h
    | ok st1 =>
      rw [hts] at h
      rcases a with ⟨time, tail⟩ | ⟨desc, tail⟩ <;> rcases tail with _ | s
      · obtain ⟨s2, hs2, -⟩ := turnStep_sync_ok hts
        cases hs2
      · obtain ⟨s2, hs2, hval⟩ := turnStep_sync_ok hts
        injection hs2 with hs2e
        subst hs2e
        subst hval
        rw [syncTimes_cons_sync, List.cons_append, List.chain'_cons] at hsync
        obtain ⟨hst, hsync'⟩ := hsync
        refine ih time _ _ lo endT st' hsync' ?_ h
        by_cases hte : text = ""
        · rw [if_pos hte]
          exact @chain_le_snoc_mono (lo :: rangesOf cues) start time hinv hst
        · rw [if_neg hte]
          have h1 := @chain_le_snoc_extend (lo :: rangesOf cues) start time hinv hst
          have h2 := @chain_le_snoc_extend ((lo :: rangesOf cues) ++ [start]) time time
            (by simpa using h1) (le_refl time)
          simpa [rangesOf_snoc] using h2
      · rcases pn with _ | _
        · simp [turnStep] at hts
        · rcases hnm : noiseMap desc with _ | m <;> simp [turnStep, hnm] at hts
      · rw [syncTimes_cons_event] at hsync
        cases pn with
        | false =>
          have hval : st1 = (start, text ++ pyStrip s, cues) := by
            simp only [turnStep] at hts
            exact (Except.ok.inj hts).symm
          subst hval
          exact ih start _ _ lo endT st' hsync hinv h
        | true =>
          cases hnm : noiseMap desc with
          | none => simp [turnStep, hnm] at hts
          | some m =>
            have hval : st1 = (start, (text ++ m) ++ pyStrip s, cues) := by
              simp only [turnStep, hnm, if_true, Option.map_some] at hts
              exact (Except.ok.inj hts).symm
            subst hval
            exact ih start _ _ lo endT st' hsync hinv h

theorem runTurn_mono (pn : Bool) (t : Turn) (cs : List Cue)
    (hm : TurnMono t) (h : runTurn pn t = .ok cs) :
    List.Chain' (· ≤ ·) (t.startTime :: (rangesOf cs ++ [t.endTime])) := by
  obtain ⟨start, text, cues, ha, hcs⟩ := runTurn_ok_inv h
  · have hinit : List.Chain' (· ≤ ·) ((t.startTime :: rangesOf ([] : List Cue))
        ++ [t.startTime]) := List.chain'_pair.mpr (le_refl _)
    have hmono := runAnns_mono pn t.anns t.startTime "" []
      t.startTime t.endTime (start, text, cues) hm hinit ha
    rw [hcs]
    by_cases hte : text = ""
    · rw [if_pos hte]
      have := @chain_le_snoc_mono (t.startTime :: rangesOf cues) start t.endTime
        hmono.1 hmono.2
      simpa using this
    · rw [if_neg hte]
      have h1 := @chain_le_snoc_extend (t.startTime :: rangesOf cues) start t.endTime
        hmono.1 hmono.2
      have h2 := @chain_le_snoc_extend ((t.startTime :: rangesOf cues) ++ [start])
        t.endTime t.endTime (by simpa using h1) (le_refl _)
      simpa [rangesOf_snoc] using h2

theorem chain_glue {l m : List Int} {lo s e : Int}
    (h1 : List.Chain' (· ≤ ·) (s :: (l ++ [e]))) (hlo : lo ≤ s)
    (h2 : List.Chain' (· ≤ ·) (e :: m)) :
    List.Chain' (· ≤ ·) (lo :: (l ++ m)) := by
  have hsl : List.Chain' (· ≤ ·) (s :: l) :=
    List.Chain'.prefix h1 ⟨[e], by simp⟩
  have hslo : List.Chain' (· ≤ ·) (lo :: l) := by
    rw [List.chain'_cons'] at hsl ⊢
    exact ⟨fun y hy => le_trans hlo (hsl.1 y hy), hsl.2⟩
  have hm : List.Chain' (· ≤ ·) m := (List.chain'_cons'.mp h2).2
  have h1' : List.Chain' (· ≤ ·) ((s :: l) ++ [e]) := by simpa using h1
  obtain ⟨_, _, hlast1⟩ := List.chain'_append.mp h1'
  have hlast : ∀ x ∈ (lo :: l).getLast?, ∀ y ∈ m.head?, x ≤ y := by
    intro x hx y hy
    have hey : e ≤ y := (List.chain'_cons'.mp h2).1 y hy
    cases l with
    | nil =>
      simp only [List.getLast?_singleton, Option.mem_def, Option.some.injEq] at hx
      subst hx
      have hse : s ≤ e := by
        have := hlast1 s (by simp) e (by simp)
        exact this
      exact le_trans (le_trans hlo hse) hey
    | cons b l2 =>
      have hx' : x ∈ (s :: b :: l2).getLast? := by
        rw [List.getLast?_cons_cons] at hx ⊢
        exact hx
      have hxe : x ≤ e := hlast1 x hx' e (by simp)
      exact le_trans hxe hey
  have := List.chain'_append.mpr ⟨hslo, hm, hlast⟩
  simpa using this

theorem cuesOfTurns_mono (pn : Bool) :
    ∀ (ts : List Turn) (lo : Int) (cs : List Cue),
      (∀ t ∈ ts, TurnMono t) →
      List.Chain' (fun a b => a.endTime ≤ b.startTime) ts →
      (∀ u ∈ ts.head?, lo ≤ u.startTime) →
      cuesOfTurns pn ts = .ok cs →
      List.Chain' (· ≤ ·) (lo :: rangesOf cs) := by
  intro ts
  induction ts with
  | nil =>
    intro lo cs hmono hborder hhead h
    cases h
    exact List.chain'_singleton lo
  | cons t rest ih =>
    intro lo cs hmono hborder hhead h
    simp only [cuesOfTurns] at h
    cases h1 : runTurn pn t with
    | error e => rw [h1] at h; cases h
    | ok c1 =>
      rw [h1] at h
      cases h2 : cuesOfTurns pn rest with
      | error e => rw [h2] at h; cases h
      | ok c2 =>
        rw [h2] at h
        simp only [Except.ok.injEq] at h
        rw [← h]
        have hturn := runTurn_mono pn t c1 (hmono t (List.mem_cons_self t rest)) h1
        have hb := List.chain'_cons'.mp hborder
        have hrest : List.Chain' (· ≤ ·) (t.endTime :: rangesOf c2) :=
          ih t.endTime c2 (fun u hu => hmono u (List.mem_cons_of_mem t hu)) hb.2
            (fun u hu => hb.1 u hu) h2
        have hlo : lo ≤ t.startTime := hhead t rfl
        rw [rangesOf_app]
        exact chain_glue hturn hlo hrest

/-- Counterexample to C3: in `turnC3` (temporally monotone) the `Sync` at
`2` s carries only empty trailing text, so the cue emitted before it ends
at `2` s while the next cue starts at `3` s — the end of the earlier cue
does not equal the start of the adjacent later cue of the same turn. -/
theorem C3_adjacent_gap_ctrex :
    TurnMono turnC3 ∧
      runTurn false turnC3 =
        .ok [⟨1000000, 2000000, "a"⟩, ⟨3000000, 10000000, "b"⟩] ∧
      (⟨1000000, 2000000, "a"⟩ : Cue).stop ≠ (⟨3000000, 10000000, "b"⟩ : Cue).start := by
  refine ⟨?_, rfl, by decide⟩
  unfold TurnMono
  simp [syncTimes, Ann.syncTime?, turnC3, List.chain'_cons]

/-- C3 amended: for a temporally monotone document the emitted cue ranges
are monotonically non-decreasing — flattened in document order the
endpoints form a `≤`-chain (each cue's start ≤ its end ≤ the next cue's
start); adjacent cues of one turn need not share an endpoint when a
`Sync` with empty accumulated text intervenes. -/
theorem C3_monotone_ranges (doc : TrsDoc) (pn : Bool) (cs : List Cue)
    (hm : DocMono doc) (h : cuesOfDoc doc pn = .ok cs) :
    List.Chain' (· ≤ ·) (rangesOf cs) := by
  unfold cuesOfDoc at h
  obtain ⟨hmt, hmb⟩ := hm
  cases hts : turnsOf doc with
  | nil =>
    rw [hts] at h
    cases h
    exact List.chain'_nil
  | cons t rest =>
    rw [hts] at h hmt hmb
    have := cuesOfTurns_mono pn (t :: rest) t.startTime cs hmt hmb
      (by intro u hu; rw [List.head?_cons, Option.mem_def, Option.some.injEq] at hu;
          subst hu; exact le_refl _) h
    exact (List.chain'_cons'.mp this).2

/-- Witness for C3's amended theorem on a monotone one-cue document. -/
theorem C3_monotone_ranges_witness :
    DocMono docC3w ∧ cuesOfDoc docC3w false = .ok [⟨1000000, 2000000, "a"⟩] ∧
      List.Chain' (· ≤ ·) (rangesOf [⟨1000000, 2000000, "a"⟩]) := by
  have hdm : DocMono docC3w := by
    constructor
    · intro t ht
      simp [turnsOf, docC3w] at ht
      subst ht
      unfold TurnMono
      simp [syncTimes, Ann.syncTime?, List.chain'_cons]
    · simp [turnsOf, docC3w]
  exact ⟨hdm, rfl, C3_monotone_ranges docC3w false _ hdm rfl⟩

/-! C8 — the speaker-prefix toggle. -/

theorem mem_intRepr (z : Int) : ∀ c ∈ intRepr z, c.isDigit = true ∨ c = '-' := by
  intro c hc
  unfold intRepr at hc
  split at hc
  · rw [List.mem_cons] at hc
    rcases hc with rfl | hc
    · exact Or.inr rfl
    · exact Or.inl (natRepr_mem_isDigit _ _ hc)
  · exact Or.inl (natRepr_mem_isDigit _ _ hc)

theorem lt_not_mem_timedeltaStr (us : Int) : '<' ∉ timedeltaStr us := by
  intro h
  by_cases hd : us.fdiv usPerDay = 0
  · have hadd := Int.fmod_add_fdiv us usPerDay
    rw [hd] at hadd
    simp only [Int.mul_zero, Int.add_zero] at hadd
    have hb : (0 : Int) < usPerDay := by norm_num [usPerDay]
    have hnn : 0 ≤ us := by
      rw [← hadd, Int.fmod_eq_emod _ (Int.le_of_lt hb)]
      exact Int.emod_nonneg us (by norm_num [usPerDay])
    have hub : us < usPerDay := by
      rw [← hadd, Int.fmod_eq_emod _ (Int.le_of_lt hb)]
      exact Int.emod_lt_of_pos us hb
    obtain ⟨n, rfl⟩ : ∃ n : Nat, us = (n : Int) := ⟨us.toNat, (Int.toNat_of_nonneg hnn).symm⟩
    have hn : n < 86400000000 := by
      have : (n : Int) < (86400000000 : Int) := by simpa [usPerDay] using hub
      exact_mod_cast this
    rw [timedeltaStr_small n hn] at h
    rcases List.mem_append.mp h with h1 | h1
    · rcases mem_hms _ _ _ '<' h1 with hdg | hc
      · exact absurd hdg (by decide)
      · exact absurd hc (by decide)
    · revert h1
      split
      · intro h1; cases h1
      · intro h1
        rw [List.mem_cons] at h1
        rcases h1 with h1 | h1
        · exact absurd h1 (by decide)
        · exact absurd (mem_pad6_isDigit _ _ h1) (by decide)
  · rw [timedeltaStr_days hd] at h
    rcases List.mem_append.mp h with h1 | h1
    · rcases List.mem_append.mp h1 with h2 | h2
      · rcases List.mem_append.mp h2 with h3 | h3
        · rcases mem_intRepr _ '<' h3 with hdg | hm
          · exact absurd hdg (by decide)
          · exact absurd hm (by decide)
        · revert h3
          split <;> decide
      · rcases mem_hms _ _ _ '<' h2 with hdg | hc
        · exact absurd hdg (by decide)
        · exact absurd hc (by decide)
    · revert h1
      split
      · intro h1; cases h1
      · intro h1
        rw [List.mem_cons] at h1
        rcases h1 with h1 | h1
        · exact absurd h1 (by decide)
        · exact absurd (mem_pad6_isDigit _ _ h1) (by decide)

theorem lt_not_mem_format_time (us : Int) : '<' ∉ (format_time us).data := by
  intro h
  by_cases hdot : '.' ∈ (timedeltaStr us).take 11
  · rw [format_time_data_of_dot hdot] at h
    rcases List.mem_append.mp h with h1 | h1
    · rw [List.mem_cons] at h1
      rcases h1 with h1 | h1
      · exact absurd h1 (by decide)
      · exact lt_not_mem_timedeltaStr us (List.mem_of_mem_take h1)
    · rw [List.mem_replicate] at h1
      exact absurd h1.2 (by decide)
  · rw [format_time_data_of_not_dot hdot] at h
    rcases List.mem_append.mp h with h1 | h1
    · rw [List.mem_cons] at h1
      rcases h1 with h1 | h1
      · exact absurd h1 (by decide)
      · exact lt_not_mem_timedeltaStr us (List.mem_of_mem_take h1)
    · exact absurd h1 (by decide)

theorem lt_not_mem_generate_timestamp (a b : Int) :
    '<' ∉ (generate_timestamp a b).data := by
  intro h
  unfold generate_timestamp at h
  rw [String.data_append, String.data_append] at h
  rcases List.mem_append.mp h with h1 | h1
  · rcases List.mem_append.mp h1 with h2 | h2
    · exact lt_not_mem_format_time a h2
    · exact absurd h2 (by decide)
  · exact lt_not_mem_format_time b h1

theorem pyStripL_subset (l : List Char) : pyStripL l ⊆ l := by
  intro c hc
  unfold pyStripL at hc
  rw [List.mem_reverse] at hc
  have h1 := List.dropWhile_subset _ hc
  rw [List.mem_reverse] at h1
  exact List.dropWhile_subset _ h1

theorem not_infix_vtag_of_not_mem {l : List Char} (h : '<' ∉ l) :
    ¬ ("<v ".data <:+: l) := by
  intro hinf
  exact h (hinf.subset (by decide))

theorem tailClean_lt_free {time : Int} {s : String}
    (h : tailClean (.sync time (some s)) = true) : '<' ∉ s.data := by
  intro hc
  unfold tailClean Ann.tailText at h
  rw [List.all_eq_true] at h
  have := h '<' hc
  exact absurd this (by decide)

theorem tailClean_lt_free_event {d : String} {s : String}
    (h : tailClean (.event d (some s)) = true) : '<' ∉ s.data := by
  intro hc
  unfold tailClean Ann.tailText at h
  rw [List.all_eq_true] at h
  have := h '<' hc
  exact absurd this (by decide)

theorem ws_not_i_slash {c : Char} (h : c.isWhitespace = true) :
    (c == 'i' || c == '/') = false := by
  have hi : c ≠ 'i' := fun he => absurd (he ▸ h) (by decide)
  have hs : c ≠ '/' := fun he => absurd (he ▸ h) (by decide)
  rw [Bool.or_eq_false_iff]
  exact ⟨beq_eq_false_iff_ne.mpr hi, beq_eq_false_iff_ne.mpr hs⟩

theorem ltOk_tail {c : Char} {l : List Char} (h : ltOk (c :: l) = true) :
    ltOk l = true := by
  cases l with
  | nil => rfl
  | cons c2 rest =>
    simp only [ltOk, Bool.and_eq_true] at h
    exact h.2

theorem ltOk_cons_of_ne {c : Char} {l : List Char} (hc : (c == '<') = false)
    (h : ltOk l = true) : ltOk (c :: l) = true := by
  cases l with
  | nil => simp [ltOk, bne, hc]
  | cons c2 rest =>
    simp only [ltOk, Bool.and_eq_true]
    refine ⟨?_, h⟩
    simp [bne, hc]

theorem ltOk_of_no_lt : ∀ {l : List Char}, '<' ∉ l → ltOk l = true := by
  intro l
  induction l with
  | nil => intro h; rfl
  | cons c rest ih =>
    intro h
    rw [List.mem_cons, not_or] at h
    have hc : (c == '<') = false := by
      rw [beq_eq_false_iff_ne]
      exact fun he => h.1 he.symm
    exact ltOk_cons_of_ne hc (ih h.2)

theorem ltOk_suffix : ∀ {l l1 : List Char}, l1 <:+ l → ltOk l = true →
    ltOk l1 = true := by
  intro l
  induction l with
  | nil =>
    intro l1 hs h
    rw [List.suffix_nil] at hs
    subst hs
    rfl
  | cons c rest ih =>
    intro l1 hs h
    rcases List.suffix_cons_iff.mp hs with rfl | hs2
    · exact h
    · exact ih hs2 (ltOk_tail h)

theorem ltOk_concat_inv :
    ∀ {l : List Char} {c : Char}, ltOk (l ++ [c]) = true →
      (c == 'i' || c == '/') = false → ltOk l = true := by
  intro l
  induction l with
  | nil => intro c _ _; rfl
  | cons d rest ih =>
    intro c h hc
    have hcc := Bool.or_eq_false_iff.mp hc
    cases rest with
    | nil =>
      simp only [List.cons_append, List.nil_append, ltOk, Bool.and_eq_true] at h
      obtain ⟨h1, -⟩ := h
      rw [hcc.1, hcc.2] at h1
      simp only [Bool.or_false] at h1
      exact h1
    | cons d2 rest2 =>
      simp only [List.cons_append, ltOk, Bool.and_eq_true] at h ⊢
      exact ⟨h.1, ih h.2 hc⟩

theorem ltOk_rdropWhile_ws : ∀ {l : List Char}, ltOk l = true →
    ltOk (l.rdropWhile Char.isWhitespace) = true := by
  intro l
  induction l using List.reverseRecOn with
  | nil => intro h; rfl
  | append_singleton l1 c ih =>
    intro h
    cases hw : Char.isWhitespace c with
    | true =>
      rw [List.rdropWhile_concat_pos _ _ _ hw]
      exact ih (ltOk_concat_inv h (ws_not_i_slash hw))
    | false =>
      rw [List.rdropWhile_concat_neg]
      · exact h
      · simp [hw]

theorem pyStripL_eq_rdrop (l : List Char) :
    pyStripL l = List.rdropWhile Char.isWhitespace (l.dropWhile Char.isWhitespace) := rfl

theorem ltOk_pyStripL {l : List Char} (h : ltOk l = true) :
    ltOk (pyStripL l) = true := by
  rw [pyStripL_eq_rdrop]
  exact ltOk_rdropWhile_ws (ltOk_suffix (List.dropWhile_suffix _) h)

theorem ltOk_append : ∀ {a b : List Char}, ltOk a = true → ltOk b = true →
    ltOk (a ++ b) = true := by
  intro a
  induction a with
  | nil => intro b _ hb; exact hb
  | cons c a1 ih =>
    intro b ha hb
    cases a1 with
    | nil =>
      have hc : (c == '<') = false := by
        have h1 : (c != '<') = true := ha
        simpa [bne] using h1
      exact ltOk_cons_of_ne hc hb
    | cons c2 a2 =>
      simp only [List.cons_append, ltOk, Bool.and_eq_true] at ha ⊢
      exact ⟨ha.1, ih ha.2 hb⟩

theorem noiseMap_ltOk {d m : String} (h : noiseMap d = some m) :
    ltOk m.data = true := by
  unfold noiseMap at h
  split_ifs at h <;> injection h with h2 <;> subst h2 <;> decide

theorem ltOk_no_vtag : ∀ {l : List Char}, ltOk l = true → ¬ ("<v ".data <:+: l) := by
  intro l
  induction l with
  | nil =>
    intro _ hinf
    have hle := hinf.length_le
    simp at hle
  | cons c rest ih =>
    intro h hinf
    rcases List.infix_cons_iff.mp hinf with hpre | hinf2
    · obtain ⟨t, ht⟩ := hpre
      have ht2 : '<' :: 'v' :: ' ' :: t = c :: rest := ht
      cases ht2
      simp [ltOk] at h
    · exact ih (ltOk_tail h) hinf2

theorem runAnns_ltOk (pn : Bool) :
    ∀ (anns : List Ann) (start : Int) (text : String) (cues : List Cue)
      (st' : Int × String × List Cue),
      (∀ a ∈ anns, tailClean a = true) →
      ltOk text.data = true →
      (∀ c ∈ cues, ltOk c.text.data = true) →
      runAnns pn anns (start, text, cues) = .ok st' →
      ltOk st'.2.1.data = true ∧ ∀ c ∈ st'.2.2, ltOk c.text.data = true := by
  intro anns
  induction anns with
  | nil =>
    intro start text cues st' hclean htext hcues h
    cases h
    exact ⟨htext, hcues⟩
  | cons a rest ih =>
    intro start text cues st' hclean htext hcues h
    simp only [runAnns] at h
    cases hts : turnStep pn (start, text, cues) a with
    | error e => rw [hts] at h; cases h
    | ok st1 =>
      rw [hts] at h
      have hcr : ∀ a1 ∈ rest, tailClean a1 = true := fun a1 ha1 =>
        hclean a1 (List.mem_cons_of_mem a ha1)
      rcases a with ⟨time, tail⟩ | ⟨desc, tail⟩ <;> rcases tail with _ | s
      · obtain ⟨s2, hs2, -⟩ := turnStep_sync_ok hts
        cases hs2
      · obtain ⟨s2, hs2, hval⟩ := turnStep_sync_ok hts
        injection hs2 with hs2e
        subst hs2e
        subst hval
        have hsfree : ltOk (pyStripL s.data) = true :=
          ltOk_of_no_lt (fun hcmem =>
            tailClean_lt_free (hclean _ (List.mem_cons_self _ _))
              (pyStripL_subset _ hcmem))
        refine ih time _ _ st' hcr ?_ ?_ h
        · rw [String.data_append]
          refine ltOk_append ?_ hsfree
          split
          · exact htext
          · rfl
        · intro c hc
          by_cases hte : text = ""
          · rw [if_pos hte] at hc
            exact hcues c hc
          · rw [if_neg hte] at hc
            rcases List.mem_append.mp hc with hcc | hcc
            · exact hcues c hcc
            · rw [List.mem_singleton] at hcc
              subst hcc
              exact htext
      · rcases pn with _ | _
        · simp [turnStep] at hts
        · rcases hnm : noiseMap desc with _ | m <;> simp [turnStep, hnm] at hts
      · have hsfree : ltOk (pyStripL s.data) = true :=
          ltOk_of_no_lt (fun hcmem =>
            tailClean_lt_free_event (hclean _ (List.mem_cons_self _ _))
              (pyStripL_subset _ hcmem))
        cases pn with
        | false =>
          have hval : st1 = (start, text ++ pyStrip s, cues) := by
            simp only [turnStep] at hts
            exact (Except.ok.inj hts).symm
          subst hval
          refine ih start _ _ st' hcr ?_ hcues h
          rw [String.data_append]
          exact ltOk_append htext hsfree
        | true =>
          cases hnm : noiseMap desc with
          | none => simp [turnStep, hnm] at hts
          | some m =>
            have hval : st1 = (start, (text ++ m) ++ pyStrip s, cues) := by
              simp only [turnStep, hnm, if_true, Option.map_some] at hts
              exact (Except.ok.inj hts).symm
            subst hval
            refine ih start _ _ st' hcr ?_ hcues h
            rw [String.data_append, String.data_append]
            exact ltOk_append (ltOk_append htext (noiseMap_ltOk hnm)) hsfree

theorem runTurn_ltOk {pn : Bool} {t : Turn} {cs : List Cue}
    (hclean : ∀ a ∈ t.anns, tailClean a = true)
    (h : runTurn pn t = .ok cs) : ∀ c ∈ cs, ltOk c.text.data = true := by
  obtain ⟨start, text, cues, ha, hcs⟩ := runTurn_ok_inv h
  · have hinv := runAnns_ltOk pn t.anns t.startTime "" [] (start, text, cues) hclean
      rfl (by intro c hc; cases hc) ha
    rw [hcs]
    intro c hc
    by_cases hte : text = ""
    · rw [if_pos hte] at hc
      exact hinv.2 c hc
    · rw [if_neg hte] at hc
      rcases List.mem_append.mp hc with hcc | hcc
      · exact hinv.2 c hcc
      · rw [List.mem_singleton] at hcc
        subst hcc
        exact hinv.1

theorem turnLines_ltOk {pn : Bool} {tbl : List (String × String)} {t : Turn}
    {ls : List String} (hclean : ∀ a ∈ t.anns, tailClean a = true)
    (h : turnLines false pn tbl t = .ok ls) :
    ∀ line ∈ ls, ltOk line.data = true := by
  unfold turnLines at h
  cases hr : runTurn pn t with
  | error e => rw [hr] at h; cases h
  | ok cs =>
    rw [hr] at h
    simp only [Except.ok.injEq] at h
    rw [← h]
    intro line hline
    rw [List.mem_flatten] at hline
    obtain ⟨block, hblock, hlineb⟩ := hline
    rw [List.mem_map] at hblock
    obtain ⟨c, hc, rfl⟩ := hblock
    have hfree := runTurn_ltOk hclean hr c hc
    simp only [cueLines, cueTextLine, List.mem_cons, List.not_mem_nil, or_false,
      Bool.false_eq_true, if_false] at hlineb
    rcases hlineb with rfl | rfl | rfl
    · exact ltOk_of_no_lt (lt_not_mem_generate_timestamp c.start c.stop)
    · rw [String.data_append]
      exact ltOk_append rfl (ltOk_pyStripL hfree)
    · rfl

theorem runTurns_ltOk {pn : Bool} {tbl : List (String × String)} :
    ∀ {ts : List Turn} {ls : List String},
      (∀ t ∈ ts, ∀ a ∈ t.anns, tailClean a = true) →
      runTurns false pn tbl ts = .ok ls → ∀ line ∈ ls, ltOk line.data = true := by
  intro ts
  induction ts with
  | nil => intro ls hclean h line hline; cases h; cases hline
  | cons t rest ih =>
    intro ls hclean h line hline
    simp only [runTurns] at h
    cases h1 : turnLines false pn tbl t with
    | error e => rw [h1] at h; cases h
    | ok l1 =>
      rw [h1] at h
      cases h2 : runTurns false pn tbl rest with
      | error e => rw [h2] at h; cases h
      | ok l2 =>
        rw [h2] at h
        simp only [Except.ok.injEq] at h
        rw [← h] at hline
        rcases List.mem_append.mp hline with hl | hl
        · exact turnLines_ltOk (hclean t (List.mem_cons_self t rest)) h1 line hl
        · exact ih (fun u hu => hclean u (List.mem_cons_of_mem t hu)) h2 line hl

theorem runSections_ltOk {pn : Bool} {tbl : List (String × String)} :
    ∀ {secs : List (List Turn)} {ls : List String},
      (∀ t ∈ secs.flatten, ∀ a ∈ t.anns, tailClean a = true) →
      runSections false pn tbl secs = .ok ls → ∀ line ∈ ls, ltOk line.data = true := by
  intro secs
  induction secs with
  | nil => intro ls hclean h line hline; cases h; cases hline
  | cons sec rest ih =>
    intro ls hclean h line hline
    simp only [runSections] at h
    rw [List.flatten_cons] at hclean
    cases h1 : runTurns false pn tbl sec with
    | error e => rw [h1] at h; cases h
    | ok l1 =>
      rw [h1] at h
      cases h2 : runSections false pn tbl rest with
      | error e => rw [h2] at h; cases h
      | ok l2 =>
        rw [h2] at h
        simp only [Except.ok.injEq] at h
        rw [← h] at hline
        rcases List.mem_append.mp hline with hl | hl
        · exact runTurns_ltOk
            (fun u hu => hclean u (List.mem_append.mpr (Or.inl hu))) h1 line hl
        · exact ih (fun u hu => hclean u (List.mem_append.mpr (Or.inr hu))) h2 line hl

/-- Counterexample to C8: with the speaker flag disabled, an input whose
trailing text itself contains `<v ` passes it straight through to an
output line — the claim's "no output line contains `<v `" fails on such
documents. -/
theorem C8_passthrough_ctrex :
    convert_lines docC8x "" false false =
        .ok ["WEBVTT", "", "00:00:01.000 --> 00:00:05.000", "see <v tag", ""] ∧
      ("<v ".data <:+: "see <v tag".data) :=
  ⟨rfl, ⟨"see ".data, "tag".data, by decide⟩⟩

/-- C8 amended: (1) with the speaker flag disabled — whatever the noise
flag — no output line contains `<v ` provided the document's own trailing
text and the language tag contain no `<` character: the converter itself
never adds the marker, and in every noise markup it inserts each `<` is
followed by `i` or `/`; (2) with the flag enabled, every cue text line of
a turn whose speaker id resolves in the speaker table begins with
`<v ` followed by the resolved name and `>`. -/
theorem C8_speaker_toggle :
    (∀ (doc : TrsDoc) (lang : String) (pn : Bool) (out : List String),
        docTextClean doc = true → '<' ∉ lang.data →
        convert_lines doc lang false pn = .ok out →
        ∀ line ∈ out, ¬ ("<v ".data <:+: line.data)) ∧
      (∀ (tbl : List (String × String)) (t : Turn) (name : String) (pn : Bool)
          (cs : List Cue), speakersFind tbl (t.speaker.getD "") = some name →
          runTurn pn t = .ok cs → ∀ c ∈ cs,
          ∃ r, cueTextLine true (speakerVTag tbl t) c = "<v " ++ name ++ ">" ++ r) := by
  constructor
  · intro doc lang pn out hclean hlang h
    unfold convert_lines at h
    cases hs : runSections false pn doc.speakers doc.sections with
    | error e => rw [hs] at h; cases h
    | ok body =>
      rw [hs] at h
      simp only [Except.ok.injEq] at h
      rw [← h]
      intro line hline
      rcases List.mem_append.mp hline with hh | hb
      · apply not_infix_vtag_of_not_mem
        rcases List.mem_append.mp hh with h1 | h1
        · rcases List.mem_append.mp h1 with h2 | h2
          · rw [List.mem_singleton] at h2
            subst h2
            decide
          · revert h2
            split
            · intro h2; cases h2
            · intro h2
              rw [List.mem_singleton] at h2
              subst h2
              rw [String.data_append]
              intro hc
              rcases List.mem_append.mp hc with hc | hc
              · exact absurd hc (by decide)
              · exact hlang hc
        · rw [List.mem_singleton] at h1
          subst h1
          decide
      · have hcl : ∀ t ∈ doc.sections.flatten, ∀ a ∈ t.anns, tailClean a = true := by
          unfold docTextClean turnsOf at hclean
          rw [List.all_eq_true] at hclean
          intro t ht
          have hta := hclean t ht
          rw [List.all_eq_true] at hta
          exact hta
        exact ltOk_no_vtag (runSections_ltOk hcl hs line hb)
  · intro tbl t name pn cs hname h c hc
    refine ⟨pyStrip c.text, ?_⟩
    unfold cueTextLine speakerVTag speakersGet
    rw [hname]
    apply String.ext
    simp

/-- Witness for C8 on a clean document with a resolvable speaker; the
no-marker half is exercised with noise preservation enabled. -/
theorem C8_speaker_toggle_witness :
    docTextClean docC8w = true ∧
      (∀ line ∈ ["WEBVTT", "", "00:00:01.000 --> 00:00:05.000", "hi", ""],
        ¬ ("<v ".data <:+: line.data)) ∧
      ∃ r, cueTextLine true
          (speakerVTag [("spk1", "Alice")]
            ⟨some "spk1", 0, 5000000, [.sync 1000000 (some "hi")]⟩)
          ⟨1000000, 5000000, "hi"⟩ = "<v " ++ "Alice" ++ ">" ++ r :=
  ⟨by decide,
    C8_speaker_toggle.1 docC8w "" true _ (by decide) (by decide) rfl,
    C8_speaker_toggle.2 [("spk1", "Alice")]
      ⟨some "spk1", 0, 5000000, [.sync 1000000 (some "hi")]⟩ "Alice" false
      [⟨1000000, 5000000, "hi"⟩] (by decide) rfl _ (List.mem_singleton_self _)⟩
